import Mathlib

/-!
Verification of the prefix-tree repository (a compressed radix tree offering
map and set semantics).  The repository carries three encodings of the tree:

* lib.rs: a byte-keyed child/sibling linked node (Node), the oldest draft;
* tree.rs: a generic child/sibling linked node (Tree);
* the children-collection tree used by map.rs (PrefixMap): that file calls
  Tree.empty, Tree.children, Tree.key, Tree.value and an insert returning the
  previous value, an interface the tree.rs draft does not provide, so this
  final encoding is not part of the sources and is modelled here from the
  specification (RadixNode, as the spec names it); the PrefixMap wrapper and
  its iterator are translated from map.rs itself.

All functions are translated into pure Lean functions; in-place mutation
becomes returning the updated structure.  The file is organised as
definitions first, then the supporting lemmas and the claim theorems.
-/

namespace PrefixTree

/-- Length of the longest common prefix of two lists, as computed by
common_prefix in tree.rs and by Node.common_prefix in lib.rs: zip the two
sequences, take while the components are equal, count. -/
def commonPrefixLen {K : Type} [DecidableEq K] : List K → List K → Nat
  | a :: as, b :: bs => if a = b then commonPrefixLen as bs + 1 else 0
  | _, _ => 0

variable {K : Type} [DecidableEq K]

/-- A node of the byte-keyed prefix tree of lib.rs, in the binary
child/sibling encoding; bytes are modelled as Nat.  Fields: the edge key
fragment, the optional value, the first child and the next sibling. -/
inductive Node (T : Type) : Type where
  | mk (key : List Nat) (value : Option T) (child : Option (Node T)) (sibling : Option (Node T))

namespace Node

variable {T : Type}

def key : Node T → List Nat
  | .mk k _ _ _ => k

def value : Node T → Option T
  | .mk _ v _ _ => v

def child : Node T → Option (Node T)
  | .mk _ _ c _ => c

def sibling : Node T → Option (Node T)
  | .mk _ _ _ s => s

/-- Node::new in lib.rs: a leaf holding the key fragment and the value. -/
def new (k : List Nat) (v : T) : Node T := .mk k (some v) none none

/-- Node::find in lib.rs. -/
def find : Node T → List Nat → Option (Node T)
  | .mk nk nv nc ns, k =>
    if commonPrefixLen nk k = 0 then
      match ns with
      | some s => s.find k
      | none => none
    else if commonPrefixLen nk k = nk.length then
      if commonPrefixLen nk k = k.length then some (.mk nk nv nc ns)
      else
        match nc with
        | some c => c.find (k.drop (commonPrefixLen nk k))
        | none => none
    else none

/-- Node::insert in lib.rs.  In-place mutation becomes returning the updated
node.  When the split runs, self.child becomes the detached node and the
following match always descends into it.  When the common prefix is nonzero
but not shorter than the key (the key coincides with the node or is a strict
prefix of its fragment) the original code has no branch, so the node is
returned unchanged and the value is discarded; shrink_to_fit only changes
capacity and is a no-op here. -/
def insert : Node T → List Nat → T → Node T
  | .mk nk nv nc ns, k, v =>
    if commonPrefixLen nk k = 0 then
      match ns with
      | some s => .mk nk nv nc (some (s.insert k v))
      | none => .mk nk nv nc (some (new k v))
    else if hlt : commonPrefixLen nk k < k.length then
      if commonPrefixLen nk k < nk.length then
        .mk (nk.take (commonPrefixLen nk k)) none
          (some ((Node.mk (nk.drop (commonPrefixLen nk k)) nv nc none).insert
            (k.drop (commonPrefixLen nk k)) v)) ns
      else
        match nc with
        | some c => .mk nk nv (some (c.insert (k.drop (commonPrefixLen nk k)) v)) ns
        | none => .mk nk nv (some (new (k.drop (commonPrefixLen nk k)) v)) ns
    else .mk nk nv nc ns
termination_by n k v => (k.length, sizeOf n)

end Node

/-- A node of the generic child/sibling tree of tree.rs.  Fields: the edge
key fragment, the optional value, the first child and the next sibling. -/
inductive Tree (K V : Type) : Type where
  | mk (key : List K) (value : Option V) (child : Option (Tree K V)) (sibling : Option (Tree K V))

namespace Tree

variable {V : Type}

def key : Tree K V → List K
  | .mk k _ _ _ => k

def value : Tree K V → Option V
  | .mk _ v _ _ => v

def child : Tree K V → Option (Tree K V)
  | .mk _ _ c _ => c

def sibling : Tree K V → Option (Tree K V)
  | .mk _ _ _ s => s

/-- Tree::new in tree.rs: a leaf holding the key fragment and the value. -/
def new (k : List K) (v : V) : Tree K V := .mk k (some v) none none

/-- Tree::find in tree.rs.  Unlike lib.rs it first returns the node itself
when both the query key and the node fragment are empty. -/
def find : Tree K V → List K → Option (Tree K V)
  | .mk tk tv tc ts, k =>
    if k = [] ∧ tk = [] then some (.mk tk tv tc ts)
    else if commonPrefixLen tk k = 0 then
      match ts with
      | some s => s.find k
      | none => none
    else if commonPrefixLen tk k = tk.length then
      if commonPrefixLen tk k = k.length then some (.mk tk tv tc ts)
      else
        match tc with
        | some c => c.find (k.drop (commonPrefixLen tk k))
        | none => none
    else none

/-- Tree::insert in tree.rs.  In-place mutation becomes returning the
updated node.  split_off detaches the fragment suffix together with the node
value and children into a new single child, after which the original code
matches on self.child, which the split just made the detached node; when the
remaining key is nonempty the insertion continues in the (possibly just
detached) child chain, and otherwise the node value is overwritten. -/
def insert : Tree K V → List K → V → Tree K V
  | .mk tk tv tc ts, k, v =>
    if commonPrefixLen tk k = 0 then
      match ts with
      | some s => .mk tk tv tc (some (s.insert k v))
      | none => .mk tk tv tc (some (new k v))
    else if commonPrefixLen tk k < tk.length then
      if hlt : commonPrefixLen tk k < k.length then
        .mk (tk.take (commonPrefixLen tk k)) none
          (some ((Tree.mk (tk.drop (commonPrefixLen tk k)) tv tc none).insert
            (k.drop (commonPrefixLen tk k)) v)) ts
      else
        .mk (tk.take (commonPrefixLen tk k)) (some v)
          (some (Tree.mk (tk.drop (commonPrefixLen tk k)) tv tc none)) ts
    else
      if hlt : commonPrefixLen tk k < k.length then
        match tc with
        | some c => .mk tk tv (some (c.insert (k.drop (commonPrefixLen tk k)) v)) ts
        | none => .mk tk tv (some (new (k.drop (commonPrefixLen tk k)) v)) ts
      else .mk tk (some v) tc ts
termination_by t k v => (k.length, sizeOf t)

/-- The value stored at a key: find, then read the value slot (the shape of
PrefixMap::get in map.rs). -/
def valueAt (t : Tree K V) (k : List K) : Option V := (t.find k).bind value

end Tree

/-- Modelled from the spec: the node of the final children-collection
encoding (spec section 3 names it RadixNode), that is the Tree type that
map.rs builds on but whose file is absent from the sources: a key fragment,
an optional value and an ordered list of children. -/
inductive RadixNode (K V : Type) : Type where
  | mk (fragment : List K) (value : Option V) (children : List (RadixNode K V))

namespace RadixNode

variable {V : Type}

def fragment : RadixNode K V → List K
  | .mk f _ _ => f

def value : RadixNode K V → Option V
  | .mk _ v _ => v

def children : RadixNode K V → List (RadixNode K V)
  | .mk _ _ cs => cs

/-- Modelled from the spec: Tree::empty, the root of a fresh map (root
convention: empty fragment, no value, no children). -/
def empty : RadixNode K V := .mk [] none []

end RadixNode

mutual

/-- Modelled from the spec (section 4.1): find walks from the node toward a
value; p below is the common prefix of the node fragment and the key.  If p
is shorter than the fragment the key diverges inside the fragment: no
match.  If the key is consumed exactly, this node is the match when it holds
a value (a valueless branch node is not a valid entry).  Otherwise recurse
into the child sharing a nonzero prefix with the remaining key. -/
def RadixNode.find : RadixNode K V → List K → Option (RadixNode K V)
  | .mk frag val cs, k =>
    if commonPrefixLen frag k < frag.length then none
    else if commonPrefixLen frag k = k.length then
      if val.isSome then some (.mk frag val cs) else none
    else findChild cs (k.drop (commonPrefixLen frag k))

/-- Modelled from the spec (section 4.1): the search over the children for
the unique child whose fragment shares a nonzero prefix with the key; by the
disjointness invariant at most one child matches, and the first match is
taken. -/
def findChild : List (RadixNode K V) → List K → Option (RadixNode K V)
  | [], _ => none
  | c :: cs, k =>
    if commonPrefixLen c.fragment k ≠ 0 then c.find k else findChild cs k

end

mutual

/-- Modelled from the spec (section 4.2): insert returns the updated node
and the previous value.  Step 1 (p shorter than the fragment): detach the
fragment suffix with the node value and children into a single new child,
truncate the fragment, clear the value.  Step 2 (key consumed): store the
value and return the prior one, which after a split is the just-cleared
none.  Step 3: continue in the children with the remaining key.  After a
split the detached child's fragment starts with the symbol at which the key
diverged, so step 3's search over the singleton child set cannot match it
and appends a fresh leaf; the two split branches write out that outcome
directly (theorem radix_split_detached_no_match checks this inlining). -/
def RadixNode.insert : RadixNode K V → List K → V → RadixNode K V × Option V
  | .mk frag val cs, k, v =>
    if commonPrefixLen frag k < frag.length then
      if commonPrefixLen frag k = k.length then
        (.mk (frag.take (commonPrefixLen frag k)) (some v)
          [.mk (frag.drop (commonPrefixLen frag k)) val cs], none)
      else
        (.mk (frag.take (commonPrefixLen frag k)) none
          [.mk (frag.drop (commonPrefixLen frag k)) val cs,
            .mk (k.drop (commonPrefixLen frag k)) (some v) []], none)
    else if commonPrefixLen frag k = k.length then
      (.mk frag (some v) cs, val)
    else
      let r := insertChild cs (k.drop (commonPrefixLen frag k)) v
      (.mk frag val r.1, r.2)

/-- Modelled from the spec (section 4.2 step 3): recurse into the first
child sharing a nonzero prefix with the remaining key; when no child
matches, append a new leaf at the end holding the remaining key and the
value, and report that no prior value existed. -/
def insertChild : List (RadixNode K V) → List K → V → List (RadixNode K V) × Option V
  | [], k, v => ([.mk k (some v) []], none)
  | c :: cs, k, v =>
    if commonPrefixLen c.fragment k ≠ 0 then
      let r := c.insert k v
      (r.1 :: cs, r.2)
    else
      let r := insertChild cs k v
      (c :: r.1, r.2)

end

mutual

/-- The number of value-bearing nodes reachable from a node. -/
def RadixNode.countValues : RadixNode K V → Nat
  | .mk _ val cs => (if val.isSome then 1 else 0) + countValuesList cs

def countValuesList : List (RadixNode K V) → Nat
  | [] => 0
  | c :: cs => c.countValues + countValuesList cs

end

/-- Whether a fragment shares no nonzero-length prefix with the fragment of
any node in the list: the head step of the pairwise disjointness check. -/
def headDisjoint (frag : List K) : List (RadixNode K V) → Bool
  | [] => true
  | c :: cs => decide (commonPrefixLen frag c.fragment = 0) && headDisjoint frag cs

mutual

/-- The branch invariant of the spec (section 3): at every node, no two
children fragments share a nonzero-length common prefix. -/
def RadixNode.disjB : RadixNode K V → Bool
  | .mk _ _ cs => disjListB cs

def disjListB : List (RadixNode K V) → Bool
  | [] => true
  | c :: cs => headDisjoint c.fragment cs && c.disjB && disjListB cs

end

mutual

/-- All fragments strictly below a node are nonempty (non-root nodes always
receive a nonempty fragment from insert). -/
def RadixNode.neB : RadixNode K V → Bool
  | .mk _ _ cs => neListB cs

def neListB : List (RadixNode K V) → Bool
  | [] => true
  | c :: cs => !c.fragment.isEmpty && c.neB && neListB cs

end

mutual

/-- A size measure on nodes used for iterator termination: strictly larger
than the measure of the children list. -/
def RadixNode.weight : RadixNode K V → Nat
  | .mk _ _ cs => 2 + weightList cs

def weightList : List (RadixNode K V) → Nat
  | [] => 0
  | c :: cs => c.weight + weightList cs

end

mutual

/-- The key-value pairs of a subtree in iterator order: the node itself
first (its full key is the accumulated prefix plus its fragment), then its
children depth-first. -/
def entriesOf : RadixNode K V → List K → List (List K × V)
  | .mk frag val cs, pre =>
    (match val with
      | some v => [(pre ++ frag, v)]
      | none => []) ++ entriesList cs (pre ++ frag)

def entriesList : List (RadixNode K V) → List K → List (List K × V)
  | [], _ => []
  | c :: cs, pre => entriesOf c pre ++ entriesList cs pre

end

/-- PrefixMap in map.rs: a root tree and the stored length counter. -/
structure PrefixMap (K V : Type) : Type where
  root : RadixNode K V
  length : Nat

/-- PrefixMap::new in map.rs: empty root, length zero. -/
def PrefixMap.new : PrefixMap K V := ⟨RadixNode.empty, 0⟩

/-- PrefixMap::get in map.rs: find from the root, then read the value. -/
def PrefixMap.get (m : PrefixMap K V) (k : List K) : Option V :=
  (m.root.find k).bind RadixNode.value

/-- PrefixMap::contains_key in map.rs. -/
def PrefixMap.contains_key (m : PrefixMap K V) (k : List K) : Bool :=
  (m.get k).isSome

/-- PrefixMap::insert in map.rs: delegate to the root and increment the
length counter exactly when no prior value existed; the updated map is
returned together with the previous value. -/
def PrefixMap.insert (m : PrefixMap K V) (k : List K) (v : V) :
    PrefixMap K V × Option V :=
  ((⟨(m.root.insert k v).1,
      if (m.root.insert k v).2.isNone then m.length + 1 else m.length⟩ : PrefixMap K V),
    (m.root.insert k v).2)

/-- PrefixMap::clear in map.rs: reset to a fresh map. -/
def PrefixMap.clear (_ : PrefixMap K V) : PrefixMap K V := PrefixMap.new

/-- PrefixMap::len in map.rs. -/
def PrefixMap.len (m : PrefixMap K V) : Nat := m.length

/-- PrefixMap::is_empty in map.rs. -/
def PrefixMap.is_empty (m : PrefixMap K V) : Bool := m.len == 0

/-- from_iter in map.rs: repeated insertion in sequence order into a fresh
map. -/
def PrefixMap.ofList (ps : List (List K × V)) : PrefixMap K V :=
  ps.foldl (fun m kv => (m.insert kv.1 kv.2).1) PrefixMap.new

/-- The mutating PrefixMap operations of map.rs considered by claim C9. -/
inductive MapOp (K V : Type) : Type where
  | ins (k : List K) (v : V)
  | clear

/-- Apply one PrefixMap operation. -/
def applyOp (m : PrefixMap K V) : MapOp K V → PrefixMap K V
  | .ins k v => (m.insert k v).1
  | .clear => m.clear

/-- Apply a sequence of PrefixMap operations to a fresh map. -/
def applyOps (ops : List (MapOp K V)) : PrefixMap K V :=
  ops.foldl applyOp PrefixMap.new

/-- One frame of the iterator stack of map.rs (IterStackItem): the children
not yet visited at this level and the key fragment of the node the frame
belongs to. -/
structure IterFrame (K V : Type) : Type where
  iter : List (RadixNode K V)
  key_fragment : List K

/-- The iterator state of map.rs (Iter): the root, the stack (list head =
top of the Rust Vec) and the count of entries still to be yielded. -/
structure IterState (K V : Type) : Type where
  root : RadixNode K V
  stack : List (IterFrame K V)
  length : Nat

/-- PrefixMap::iter in map.rs: a single frame holding the root children and
the root key fragment. -/
def PrefixMap.iter (m : PrefixMap K V) : IterState K V :=
  ⟨m.root, [⟨m.root.children, m.root.fragment⟩], m.length⟩

/-- The full key emitted with a node: the concatenation of the frame key
fragments from the bottom of the stack to the top (the Rust code flattens
the Vec in storage order; the list head here is the top). -/
def pathOf (stack : List (IterFrame K V)) : List K :=
  (stack.reverse.map IterFrame.key_fragment).flatten

/-- Termination measure for the iterator loop. -/
def stackMeasure (stack : List (IterFrame K V)) : Nat :=
  (stack.map (fun f => 1 + weightList f.iter)).sum

/-- The while-let loop inside Iter::next in map.rs: take the next unvisited
child of the top frame and push its frame; if it holds a value, emit the
concatenated key and the value after decrementing the remaining count;
frames without remaining children are popped. -/
def iterLoop (root : RadixNode K V) (len : Nat) :
    List (IterFrame K V) → Option (List K × V) × IterState K V
  | [] => (none, ⟨root, [], len⟩)
  | ⟨[], _⟩ :: rest => iterLoop root len rest
  | ⟨t :: ts, f⟩ :: rest =>
    match t.value with
    | some v =>
        (some (pathOf (⟨t.children, t.fragment⟩ :: ⟨ts, f⟩ :: rest), v),
          ⟨root, ⟨t.children, t.fragment⟩ :: ⟨ts, f⟩ :: rest, len - 1⟩)
    | none => iterLoop root len (⟨t.children, t.fragment⟩ :: ⟨ts, f⟩ :: rest)
termination_by stack => stackMeasure stack
decreasing_by
  · simp [stackMeasure, weightList]
  · simp [stackMeasure, weightList]
    cases t with
    | mk frag val cs => simp [RadixNode.children, RadixNode.weight]; omega

/-- Iter::next in map.rs: when exactly one entry remains and the root holds
a value, the remaining count is zeroed and the root entry (empty key) is
emitted; otherwise the stack loop runs. -/
def iterNext (st : IterState K V) : Option (List K × V) × IterState K V :=
  if st.length = 1 ∧ st.root.value.isSome then
    (st.root.value.map (fun v => (([] : List K), v)), ⟨st.root, st.stack, 0⟩)
  else iterLoop st.root st.length st.stack

/-- Iterator::size_hint and ExactSizeIterator::len in map.rs both report
the stored remaining count. -/
def iterLen (st : IterState K V) : Nat := st.length

/-- The state after calling Iter::next a number of times. -/
def nextN (st : IterState K V) : Nat → IterState K V
  | 0 => st
  | n + 1 => nextN (iterNext st).2 n

/-- Run the iterator for at most the given number of calls to next,
collecting every yielded entry and stopping at the first none. -/
def collectFuel : IterState K V → Nat → List (List K × V)
  | _, 0 => []
  | st, n + 1 =>
    match iterNext st with
    | (none, _) => []
    | (some x, st2) => x :: collectFuel st2 n

/-- The entries the iterator loop still has to deliver from a stack: those
of the not-yet-visited children of the top frame under the full current
path, then those of the lower frames. -/
def remEntries : List (IterFrame K V) → List (List K × V)
  | [] => []
  | f :: rest => entriesList f.iter (pathOf (f :: rest)) ++ remEntries rest

/-! Lemmas about commonPrefixLen. -/

@[simp] theorem commonPrefixLen_nil_left (b : List K) : commonPrefixLen [] b = 0 := by
  cases b <;> rfl

@[simp] theorem commonPrefixLen_nil_right (a : List K) : commonPrefixLen a [] = 0 := by
  cases a <;> rfl

theorem commonPrefixLen_cons (a b : K) (as bs : List K) :
    commonPrefixLen (a :: as) (b :: bs) =
      if a = b then commonPrefixLen as bs + 1 else 0 := rfl

theorem commonPrefixLen_le_left (a b : List K) : commonPrefixLen a b ≤ a.length := by
  induction a generalizing b with
  | nil => simp
  | cons x as ih =>
    cases b with
    | nil => simp
    | cons y bs =>
      rw [commonPrefixLen_cons]
      split
      · simpa using ih bs
      · simp

theorem commonPrefixLen_le_right (a b : List K) : commonPrefixLen a b ≤ b.length := by
  induction a generalizing b with
  | nil => simp
  | cons x as ih =>
    cases b with
    | nil => simp
    | cons y bs =>
      rw [commonPrefixLen_cons]
      split
      · simpa using ih bs
      · simp

theorem commonPrefixLen_comm (a b : List K) : commonPrefixLen a b = commonPrefixLen b a := by
  induction a generalizing b with
  | nil => simp
  | cons x as ih =>
    cases b with
    | nil => simp
    | cons y bs =>
      rw [commonPrefixLen_cons, commonPrefixLen_cons, ih bs]
      by_cases h : x = y
      · simp [h]
      · rw [if_neg h, if_neg (Ne.symm h)]

@[simp] theorem commonPrefixLen_self (a : List K) : commonPrefixLen a a = a.length := by
  induction a with
  | nil => simp
  | cons x as ih => simp [commonPrefixLen_cons, ih]

theorem commonPrefixLen_append_right (a t : List K) :
    commonPrefixLen a (a ++ t) = a.length := by
  induction a with
  | nil => simp
  | cons x as ih => simp [commonPrefixLen_cons, ih]

theorem commonPrefixLen_append_both (a b c : List K) :
    commonPrefixLen (a ++ b) (a ++ c) = a.length + commonPrefixLen b c := by
  induction a with
  | nil => simp
  | cons x as ih => simp [commonPrefixLen_cons, ih]; omega

theorem commonPrefixLen_take_left (n : Nat) (a b : List K) :
    commonPrefixLen (a.take n) b = min n (commonPrefixLen a b) := by
  induction a generalizing n b with
  | nil => simp
  | cons x as ih =>
    cases b with
    | nil => simp
    | cons y bs =>
      cases n with
      | zero => simp
      | succ m =>
        rw [List.take_succ_cons, commonPrefixLen_cons, commonPrefixLen_cons]
        split
        · rw [ih m bs]; omega
        · simp

theorem commonPrefixLen_take_right (n : Nat) (a b : List K) :
    commonPrefixLen a (b.take n) = min n (commonPrefixLen a b) := by
  rw [commonPrefixLen_comm, commonPrefixLen_take_left, commonPrefixLen_comm]

theorem take_eq_take_of_le_commonPrefixLen (n : Nat) (a b : List K)
    (h : n ≤ commonPrefixLen a b) : a.take n = b.take n := by
  induction a generalizing n b with
  | nil =>
    simp at h
    simp [h]
  | cons x as ih =>
    cases b with
    | nil => simp at h; simp [h]
    | cons y bs =>
      rw [commonPrefixLen_cons] at h
      by_cases hxy : x = y
      · rw [if_pos hxy] at h
        cases n with
        | zero => simp
        | succ m =>
          rw [List.take_succ_cons, List.take_succ_cons, hxy, ih m bs (by omega)]
      · rw [if_neg hxy] at h
        have : n = 0 := by omega
        simp [this]

theorem commonPrefixLen_drop_both (n : Nat) (a b : List K)
    (h : n ≤ commonPrefixLen a b) :
    commonPrefixLen (a.drop n) (b.drop n) = commonPrefixLen a b - n := by
  induction a generalizing n b with
  | nil => simp
  | cons x as ih =>
    cases b with
    | nil => simp
    | cons y bs =>
      cases n with
      | zero => simp
      | succ m =>
        rw [commonPrefixLen_cons] at h ⊢
        by_cases hxy : x = y
        · rw [if_pos hxy] at h ⊢
          rw [List.drop_succ_cons, List.drop_succ_cons, ih m bs (by omega)]
          omega
        · rw [if_neg hxy] at h; omega

theorem commonPrefixLen_drop_divergence (a b : List K)
    (h1 : commonPrefixLen a b < a.length) (h2 : commonPrefixLen a b < b.length) :
    commonPrefixLen (a.drop (commonPrefixLen a b)) (b.drop (commonPrefixLen a b)) = 0 := by
  induction a generalizing b with
  | nil => simp
  | cons x as ih =>
    cases b with
    | nil => simp
    | cons y bs =>
      rw [commonPrefixLen_cons] at h1 h2 ⊢
      by_cases hxy : x = y
      · rw [if_pos hxy] at h1 h2 ⊢
        simpa using ih bs (by simpa using h1) (by simpa using h2)
      · rw [if_neg hxy] at h1 h2 ⊢
        simp [commonPrefixLen_cons, hxy]

theorem eq_of_commonPrefixLen_full (a b : List K)
    (h1 : commonPrefixLen a b = a.length) (h2 : a.length = b.length) : a = b := by
  induction a generalizing b with
  | nil => cases b <;> simp_all
  | cons x as ih =>
    cases b with
    | nil => simp at h2
    | cons y bs =>
      rw [commonPrefixLen_cons] at h1
      by_cases hxy : x = y
      · rw [if_pos hxy] at h1
        simp only [List.length_cons] at h1 h2
        rw [hxy, ih bs (by omega) (by omega)]
      · rw [if_neg hxy] at h1; simp at h1

theorem commonPrefixLen_pos_head {a b : List K} (h : 0 < commonPrefixLen a b) :
    ∃ x as bs, a = x :: as ∧ b = x :: bs := by
  cases a with
  | nil => simp at h
  | cons x as =>
    cases b with
    | nil => simp at h
    | cons y bs =>
      rw [commonPrefixLen_cons] at h
      by_cases hxy : x = y
      · exact ⟨x, as, bs, rfl, by rw [hxy]⟩
      · rw [if_neg hxy] at h; omega

theorem commonPrefixLen_eq_zero_of_head_ne {x y : K} {as bs : List K} (h : x ≠ y) :
    commonPrefixLen (x :: as) (y :: bs) = 0 := by
  rw [commonPrefixLen_cons, if_neg h]

theorem commonPrefixLen_cons_self (x : K) (as bs : List K) :
    commonPrefixLen (x :: as) (x :: bs) = commonPrefixLen as bs + 1 := by
  rw [commonPrefixLen_cons, if_pos rfl]

/-- If p is at most the common prefix length of a and b, then b decomposes
as the first p symbols of a followed by the rest of b. -/
theorem append_take_drop_of_commonPrefixLen (p : Nat) (a b : List K)
    (h : p ≤ commonPrefixLen a b) : b = a.take p ++ b.drop p := by
  rw [take_eq_take_of_le_commonPrefixLen p a b h, List.take_append_drop]

/-! Accessor lemmas. -/

namespace Node

variable {T : Type}

@[simp] theorem node_key_mk (k : List Nat) (v : Option T) (c s : Option (Node T)) :
    (Node.mk k v c s).key = k := rfl

@[simp] theorem node_value_mk (k : List Nat) (v : Option T) (c s : Option (Node T)) :
    (Node.mk k v c s).value = v := rfl

@[simp] theorem node_child_mk (k : List Nat) (v : Option T) (c s : Option (Node T)) :
    (Node.mk k v c s).child = c := rfl

@[simp] theorem node_sibling_mk (k : List Nat) (v : Option T) (c s : Option (Node T)) :
    (Node.mk k v c s).sibling = s := rfl

end Node

namespace Tree

variable {V : Type}

@[simp] theorem tree_key_mk (k : List K) (v : Option V) (c s : Option (Tree K V)) :
    (Tree.mk k v c s).key = k := rfl

@[simp] theorem tree_value_mk (k : List K) (v : Option V) (c s : Option (Tree K V)) :
    (Tree.mk k v c s).value = v := rfl

@[simp] theorem tree_child_mk (k : List K) (v : Option V) (c s : Option (Tree K V)) :
    (Tree.mk k v c s).child = c := rfl

@[simp] theorem tree_sibling_mk (k : List K) (v : Option V) (c s : Option (Tree K V)) :
    (Tree.mk k v c s).sibling = s := rfl

/-! Branch lemmas for Tree.find, one per arm of the source match. -/

theorem find_nil_nil (tv : Option V) (tc ts : Option (Tree K V)) :
    (Tree.mk ([] : List K) tv tc ts).find [] = some (Tree.mk [] tv tc ts) := by
  rw [find.eq_def]
  dsimp only
  rw [if_pos ⟨rfl, rfl⟩]

theorem find_cp_zero (tk k : List K) (tv : Option V) (tc ts : Option (Tree K V))
    (hne : ¬(k = [] ∧ tk = [])) (h : commonPrefixLen tk k = 0) :
    (Tree.mk tk tv tc ts).find k = ts.bind (fun s => s.find k) := by
  rw [find.eq_def]
  dsimp only
  rw [if_neg hne, if_pos h]
  cases ts <;> rfl

theorem tree_find_divergence (tk k : List K) (tv : Option V) (tc ts : Option (Tree K V))
    (h1 : commonPrefixLen tk k ≠ 0) (h2 : commonPrefixLen tk k < tk.length) :
    (Tree.mk tk tv tc ts).find k = none := by
  have hne : ¬(k = [] ∧ tk = []) := by
    rintro ⟨rfl, rfl⟩; simp at h1
  rw [find.eq_def]
  dsimp only
  rw [if_neg hne, if_neg h1, if_neg (by omega)]

theorem tree_find_terminal (tk k : List K) (tv : Option V) (tc ts : Option (Tree K V))
    (h1 : commonPrefixLen tk k ≠ 0) (h2 : commonPrefixLen tk k = tk.length)
    (h3 : commonPrefixLen tk k = k.length) :
    (Tree.mk tk tv tc ts).find k = some (Tree.mk tk tv tc ts) := by
  have hne : ¬(k = [] ∧ tk = []) := by
    rintro ⟨rfl, rfl⟩; simp at h1
  rw [find.eq_def]
  dsimp only
  rw [if_neg hne, if_neg h1, if_pos h2, if_pos h3]

theorem tree_find_descend (tk k : List K) (tv : Option V) (tc ts : Option (Tree K V))
    (h1 : commonPrefixLen tk k ≠ 0) (h2 : commonPrefixLen tk k = tk.length)
    (h3 : commonPrefixLen tk k ≠ k.length) :
    (Tree.mk tk tv tc ts).find k =
      tc.bind (fun c => c.find (k.drop (commonPrefixLen tk k))) := by
  have hne : ¬(k = [] ∧ tk = []) := by
    rintro ⟨rfl, rfl⟩; simp at h1
  rw [find.eq_def]
  dsimp only
  rw [if_neg hne, if_neg h1, if_pos h2, if_neg h3]
  cases tc <;> rfl

/-! Branch lemmas for Tree.insert, one per path through the source. -/

theorem insert_cp_zero (tk k : List K) (tv : Option V) (tc ts : Option (Tree K V)) (v : V)
    (h : commonPrefixLen tk k = 0) :
    (Tree.mk tk tv tc ts).insert k v =
      Tree.mk tk tv tc (some (match ts with
        | some s => s.insert k v
        | none => Tree.new k v)) := by
  rw [insert.eq_def]
  dsimp only
  rw [if_pos h]
  cases ts <;> rfl

theorem tree_insert_split_terminal (tk k : List K) (tv : Option V) (tc ts : Option (Tree K V)) (v : V)
    (h1 : commonPrefixLen tk k ≠ 0) (h2 : commonPrefixLen tk k < tk.length)
    (h3 : ¬commonPrefixLen tk k < k.length) :
    (Tree.mk tk tv tc ts).insert k v =
      Tree.mk (tk.take (commonPrefixLen tk k)) (some v)
        (some (Tree.mk (tk.drop (commonPrefixLen tk k)) tv tc none)) ts := by
  rw [insert.eq_def]
  dsimp only
  rw [if_neg h1, if_pos h2, dif_neg h3]

theorem tree_insert_split_descend (tk k : List K) (tv : Option V) (tc ts : Option (Tree K V)) (v : V)
    (h1 : commonPrefixLen tk k ≠ 0) (h2 : commonPrefixLen tk k < tk.length)
    (h3 : commonPrefixLen tk k < k.length) :
    (Tree.mk tk tv tc ts).insert k v =
      Tree.mk (tk.take (commonPrefixLen tk k)) none
        (some (Tree.mk (tk.drop (commonPrefixLen tk k)) tv tc
          (some (Tree.new (k.drop (commonPrefixLen tk k)) v)))) ts := by
  rw [insert.eq_def]
  dsimp only
  rw [if_neg h1, if_pos h2, dif_pos h3,
    insert_cp_zero (tk.drop (commonPrefixLen tk k)) (k.drop (commonPrefixLen tk k))
      tv tc none v (commonPrefixLen_drop_divergence tk k h2 h3)]

theorem insert_nosplit_terminal (tk k : List K) (tv : Option V) (tc ts : Option (Tree K V)) (v : V)
    (h1 : commonPrefixLen tk k ≠ 0) (h2 : ¬commonPrefixLen tk k < tk.length)
    (h3 : ¬commonPrefixLen tk k < k.length) :
    (Tree.mk tk tv tc ts).insert k v = Tree.mk tk (some v) tc ts := by
  rw [insert.eq_def]
  dsimp only
  rw [if_neg h1, if_neg h2, dif_neg h3]

theorem insert_nosplit_descend (tk k : List K) (tv : Option V) (tc ts : Option (Tree K V)) (v : V)
    (h1 : commonPrefixLen tk k ≠ 0) (h2 : ¬commonPrefixLen tk k < tk.length)
    (h3 : commonPrefixLen tk k < k.length) :
    (Tree.mk tk tv tc ts).insert k v =
      Tree.mk tk tv (some (match tc with
        | some c => c.insert (k.drop (commonPrefixLen tk k)) v
        | none => Tree.new (k.drop (commonPrefixLen tk k)) v)) ts := by
  rw [insert.eq_def]
  dsimp only
  rw [if_neg h1, if_neg h2, dif_pos h3]
  cases tc <;> rfl

end Tree

/-! Lemmas about the modelled RadixNode: accessors, branch lemmas of find
and insert, and the basic insert properties. -/

namespace RadixNode

variable {V : Type}

@[simp] theorem fragment_mk (f : List K) (v : Option V) (cs : List (RadixNode K V)) :
    (RadixNode.mk f v cs).fragment = f := rfl

@[simp] theorem value_mk (f : List K) (v : Option V) (cs : List (RadixNode K V)) :
    (RadixNode.mk f v cs).value = v := rfl

@[simp] theorem children_mk (f : List K) (v : Option V) (cs : List (RadixNode K V)) :
    (RadixNode.mk f v cs).children = cs := rfl

theorem find_divergence (f k : List K) (val : Option V) (cs : List (RadixNode K V))
    (h : commonPrefixLen f k < f.length) :
    (RadixNode.mk f val cs).find k = none := by
  rw [find.eq_def]
  dsimp only
  rw [if_pos h]

theorem find_terminal (f k : List K) (val : Option V) (cs : List (RadixNode K V))
    (h1 : ¬commonPrefixLen f k < f.length) (h2 : commonPrefixLen f k = k.length) :
    (RadixNode.mk f val cs).find k =
      (if val.isSome then some (RadixNode.mk f val cs) else none) := by
  rw [find.eq_def]
  dsimp only
  rw [if_neg h1, if_pos h2]

theorem find_descend (f k : List K) (val : Option V) (cs : List (RadixNode K V))
    (h1 : ¬commonPrefixLen f k < f.length) (h2 : commonPrefixLen f k ≠ k.length) :
    (RadixNode.mk f val cs).find k = findChild cs (k.drop (commonPrefixLen f k)) := by
  rw [find.eq_def]
  dsimp only
  rw [if_neg h1, if_neg h2]

theorem insert_split_terminal (f k : List K) (val : Option V) (cs : List (RadixNode K V))
    (v : V) (h1 : commonPrefixLen f k < f.length) (h2 : commonPrefixLen f k = k.length) :
    (RadixNode.mk f val cs).insert k v =
      (RadixNode.mk (f.take (commonPrefixLen f k)) (some v)
        [RadixNode.mk (f.drop (commonPrefixLen f k)) val cs], none) := by
  rw [insert.eq_def]
  dsimp only
  rw [if_pos h1, if_pos h2]

theorem insert_split_descend (f k : List K) (val : Option V) (cs : List (RadixNode K V))
    (v : V) (h1 : commonPrefixLen f k < f.length) (h2 : commonPrefixLen f k ≠ k.length) :
    (RadixNode.mk f val cs).insert k v =
      (RadixNode.mk (f.take (commonPrefixLen f k)) none
        [RadixNode.mk (f.drop (commonPrefixLen f k)) val cs,
          RadixNode.mk (k.drop (commonPrefixLen f k)) (some v) []], none) := by
  rw [insert.eq_def]
  dsimp only
  rw [if_pos h1, if_neg h2]

theorem insert_terminal (f k : List K) (val : Option V) (cs : List (RadixNode K V))
    (v : V) (h1 : ¬commonPrefixLen f k < f.length) (h2 : commonPrefixLen f k = k.length) :
    (RadixNode.mk f val cs).insert k v = (RadixNode.mk f (some v) cs, val) := by
  rw [insert.eq_def]
  dsimp only
  rw [if_neg h1, if_pos h2]

theorem insert_descend (f k : List K) (val : Option V) (cs : List (RadixNode K V))
    (v : V) (h1 : ¬commonPrefixLen f k < f.length) (h2 : commonPrefixLen f k ≠ k.length) :
    (RadixNode.mk f val cs).insert k v =
      (RadixNode.mk f val (insertChild cs (k.drop (commonPrefixLen f k)) v).1,
        (insertChild cs (k.drop (commonPrefixLen f k)) v).2) := by
  rw [insert.eq_def]
  dsimp only
  rw [if_neg h1, if_neg h2]

end RadixNode

@[simp] theorem findChild_nil {V : Type} (k : List K) :
    findChild ([] : List (RadixNode K V)) k = none := by
  rw [findChild.eq_def]

theorem findChild_cons_match {V : Type} (c : RadixNode K V) (cs : List (RadixNode K V))
    (k : List K) (h : commonPrefixLen c.fragment k ≠ 0) :
    findChild (c :: cs) k = c.find k := by
  rw [findChild.eq_def]
  dsimp only
  rw [if_pos h]

theorem findChild_cons_skip {V : Type} (c : RadixNode K V) (cs : List (RadixNode K V))
    (k : List K) (h : commonPrefixLen c.fragment k = 0) :
    findChild (c :: cs) k = findChild cs k := by
  rw [findChild.eq_def]
  dsimp only
  rw [if_neg (by simpa using h)]

@[simp] theorem insertChild_nil {V : Type} (k : List K) (v : V) :
    insertChild ([] : List (RadixNode K V)) k v =
      ([RadixNode.mk k (some v) []], none) := by
  rw [insertChild.eq_def]

theorem insertChild_cons_match {V : Type} (c : RadixNode K V) (cs : List (RadixNode K V))
    (k : List K) (v : V) (h : commonPrefixLen c.fragment k ≠ 0) :
    insertChild (c :: cs) k v = ((c.insert k v).1 :: cs, (c.insert k v).2) := by
  rw [insertChild.eq_def]
  dsimp only
  rw [if_pos h]

theorem insertChild_cons_skip {V : Type} (c : RadixNode K V) (cs : List (RadixNode K V))
    (k : List K) (v : V) (h : commonPrefixLen c.fragment k = 0) :
    insertChild (c :: cs) k v = (c :: (insertChild cs k v).1, (insertChild cs k v).2) := by
  rw [insertChild.eq_def]
  dsimp only
  rw [if_neg (by simpa using h)]

/-- Soundness of the inlining in the split branches of the modelled insert:
after a split the detached child's fragment shares no nonzero prefix with
the remaining key, so the step 3 search could not have matched it. -/
theorem radix_split_detached_no_match (f k : List K)
    (h1 : commonPrefixLen f k < f.length) (h2 : commonPrefixLen f k ≠ k.length) :
    commonPrefixLen (f.drop (commonPrefixLen f k)) (k.drop (commonPrefixLen f k)) = 0 := by
  have := commonPrefixLen_le_right f k
  exact commonPrefixLen_drop_divergence f k h1 (by omega)

/-- The fragment after insert is the original fragment truncated to the
common prefix with the key (no truncation when the prefix covers it). -/
theorem RadixNode.insert_fragment {V : Type} (n : RadixNode K V) (k : List K) (v : V) :
    ((n.insert k v).1).fragment = n.fragment.take (commonPrefixLen n.fragment k) := by
  obtain ⟨f, val, cs⟩ := n
  simp only [RadixNode.fragment_mk]
  by_cases h1 : commonPrefixLen f k < f.length
  · by_cases h2 : commonPrefixLen f k = k.length
    · rw [RadixNode.insert_split_terminal f k val cs v h1 h2]
      rfl
    · rw [RadixNode.insert_split_descend f k val cs v h1 h2]
      rfl
  · have hle : commonPrefixLen f k ≤ f.length := commonPrefixLen_le_left f k
    have heq : commonPrefixLen f k = f.length := by omega
    by_cases h2 : commonPrefixLen f k = k.length
    · rw [RadixNode.insert_terminal f k val cs v h1 h2]
      simp [heq]
    · rw [RadixNode.insert_descend f k val cs v h1 h2]
      simp [heq]

mutual

/-- After insert, the inserted key is retrievable with the new value. -/
theorem RadixNode.get_insert_self {V : Type} :
    ∀ (n : RadixNode K V) (k : List K) (v : V),
    (((n.insert k v).1).find k).bind RadixNode.value = some v
  | .mk f val cs, k, v => by
    have hle : commonPrefixLen f k ≤ f.length := commonPrefixLen_le_left f k
    have hler : commonPrefixLen f k ≤ k.length := commonPrefixLen_le_right f k
    have htk : (f.take (commonPrefixLen f k)).length = commonPrefixLen f k := by
      simp [List.length_take]
      omega
    have hcpA : commonPrefixLen (f.take (commonPrefixLen f k)) k = commonPrefixLen f k := by
      rw [commonPrefixLen_take_left]
      omega
    by_cases h1 : commonPrefixLen f k < f.length
    · by_cases h2 : commonPrefixLen f k = k.length
      · rw [RadixNode.insert_split_terminal f k val cs v h1 h2]
        dsimp only
        rw [RadixNode.find_terminal _ k (some v) _ (by omega) (by omega)]
        simp
      · rw [RadixNode.insert_split_descend f k val cs v h1 h2]
        dsimp only
        rw [RadixNode.find_descend _ k none _ (by omega) (by omega), hcpA,
          findChild_cons_skip _ _ _
            (by simpa using radix_split_detached_no_match f k h1 h2),
          findChild_cons_match _ _ _
            (by simp [List.length_drop]; omega),
          RadixNode.find_terminal _ _ (some v) _
            (by simp) (by simp)]
        simp
    · by_cases h2 : commonPrefixLen f k = k.length
      · rw [RadixNode.insert_terminal f k val cs v h1 h2]
        dsimp only
        rw [RadixNode.find_terminal f k (some v) cs h1 h2]
        simp
      · rw [RadixNode.insert_descend f k val cs v h1 h2]
        dsimp only
        rw [RadixNode.find_descend f k val _ h1 h2]
        exact get_insertChild_self cs (k.drop (commonPrefixLen f k)) v (by
          intro hh
          have h5 := congrArg List.length hh
          simp at h5
          omega)

/-- After insertChild, the inserted (nonempty) key is retrievable with the
new value through the child search. -/
theorem get_insertChild_self {V : Type} :
    ∀ (cs : List (RadixNode K V)) (k : List K) (v : V), k ≠ [] →
    (findChild (insertChild cs k v).1 k).bind RadixNode.value = some v
  | [], k, v => by
    intro hk
    have hlen : 0 < k.length := List.length_pos.mpr hk
    rw [insertChild_nil]
    dsimp only
    rw [findChild_cons_match _ _ _
        (by simp only [RadixNode.fragment_mk, commonPrefixLen_self]; omega),
      RadixNode.find_terminal _ _ (some v) _ (by simp) (by simp)]
    simp
  | c :: cs, k, v => by
    intro hk
    by_cases hc : commonPrefixLen c.fragment k ≠ 0
    · rw [insertChild_cons_match c cs k v hc]
      dsimp only
      have hfrag : ((c.insert k v).1).fragment
          = c.fragment.take (commonPrefixLen c.fragment k) :=
        RadixNode.insert_fragment c k v
      have hne0 : commonPrefixLen ((c.insert k v).1).fragment k ≠ 0 := by
        rw [hfrag, commonPrefixLen_take_left]
        omega
      rw [findChild_cons_match _ _ _ hne0]
      exact RadixNode.get_insert_self c k v
    · rw [insertChild_cons_skip c cs k v (by omega)]
      dsimp only
      rw [findChild_cons_skip c _ k (by omega)]
      exact get_insertChild_self cs k v hk

end

mutual

/-- The previous value returned by insert is exactly what find-then-value
reported before the insertion. -/
theorem RadixNode.insert_snd_eq_get {V : Type} :
    ∀ (n : RadixNode K V) (k : List K) (v : V),
    (n.insert k v).2 = (n.find k).bind RadixNode.value
  | .mk f val cs, k, v => by
    by_cases h1 : commonPrefixLen f k < f.length
    · by_cases h2 : commonPrefixLen f k = k.length
      · rw [RadixNode.insert_split_terminal f k val cs v h1 h2,
          RadixNode.find_divergence f k val cs h1]
        rfl
      · rw [RadixNode.insert_split_descend f k val cs v h1 h2,
          RadixNode.find_divergence f k val cs h1]
        rfl
    · by_cases h2 : commonPrefixLen f k = k.length
      · rw [RadixNode.insert_terminal f k val cs v h1 h2,
          RadixNode.find_terminal f k val cs h1 h2]
        cases val <;> simp
      · rw [RadixNode.insert_descend f k val cs v h1 h2,
          RadixNode.find_descend f k val cs h1 h2]
        exact insertChild_snd_eq_get cs (k.drop (commonPrefixLen f k)) v

/-- The previous value returned by insertChild is exactly what the child
search followed by value reported before the insertion. -/
theorem insertChild_snd_eq_get {V : Type} :
    ∀ (cs : List (RadixNode K V)) (k : List K) (v : V),
    (insertChild cs k v).2 = (findChild cs k).bind RadixNode.value
  | [], k, v => by
    rw [insertChild_nil, findChild_nil]
    rfl
  | c :: cs, k, v => by
    by_cases hc : commonPrefixLen c.fragment k ≠ 0
    · rw [insertChild_cons_match c cs k v hc, findChild_cons_match c cs k hc]
      exact RadixNode.insert_snd_eq_get c k v
    · rw [insertChild_cons_skip c cs k v (by omega), findChild_cons_skip c cs k (by omega)]
      exact insertChild_snd_eq_get cs k v

end

mutual

/-- Insert increases the number of value-bearing nodes exactly when it
reports that no prior value existed. -/
theorem RadixNode.countValues_insert {V : Type} :
    ∀ (n : RadixNode K V) (k : List K) (v : V),
    ((n.insert k v).1).countValues
      = n.countValues + (if (n.insert k v).2.isSome then 0 else 1)
  | .mk f val cs, k, v => by
    by_cases h1 : commonPrefixLen f k < f.length
    · by_cases h2 : commonPrefixLen f k = k.length
      · rw [RadixNode.insert_split_terminal f k val cs v h1 h2]
        simp [RadixNode.countValues, countValuesList] <;> omega
      · rw [RadixNode.insert_split_descend f k val cs v h1 h2]
        simp [RadixNode.countValues, countValuesList] <;> omega
    · by_cases h2 : commonPrefixLen f k = k.length
      · rw [RadixNode.insert_terminal f k val cs v h1 h2]
        cases val <;> simp [RadixNode.countValues, countValuesList] <;> omega
      · rw [RadixNode.insert_descend f k val cs v h1 h2]
        have := countValuesList_insertChild cs (k.drop (commonPrefixLen f k)) v
        simp [RadixNode.countValues, countValuesList]
        omega

/-- insertChild increases the number of value-bearing nodes exactly when it
reports that no prior value existed. -/
theorem countValuesList_insertChild {V : Type} :
    ∀ (cs : List (RadixNode K V)) (k : List K) (v : V),
    countValuesList (insertChild cs k v).1
      = countValuesList cs + (if (insertChild cs k v).2.isSome then 0 else 1)
  | [], k, v => by
    rw [insertChild_nil]
    simp [countValuesList, RadixNode.countValues]
  | c :: cs, k, v => by
    by_cases hc : commonPrefixLen c.fragment k ≠ 0
    · rw [insertChild_cons_match c cs k v hc]
      have := RadixNode.countValues_insert c k v
      simp [countValuesList]
      omega
    · rw [insertChild_cons_skip c cs k v (by omega)]
      have := countValuesList_insertChild cs k v
      simp [countValuesList]
      omega

end

/-- Both shapes a modelled split node can take (value refilled or not, leaf
appended after the detached child or not) preserve the value stored at
every key other than the inserted one. -/
theorem radix_split_preserve_core {V : Type} (f : List K) (val : Option V)
    (cs : List (RadixNode K V)) (k : List K) (v : V) (k0 : List K)
    (h1 : commonPrefixLen f k < f.length) (hk0 : k0 ≠ k)
    (rv : Option V) (tail : List (RadixNode K V))
    (hrv : rv = none ∨ (commonPrefixLen f k = k.length ∧ rv = some v))
    (htail : tail = [] ∨ (commonPrefixLen f k < k.length
      ∧ tail = [RadixNode.mk (k.drop (commonPrefixLen f k)) (some v) []])) :
    ((RadixNode.mk (f.take (commonPrefixLen f k)) rv
        (RadixNode.mk (f.drop (commonPrefixLen f k)) val cs :: tail)).find k0).bind
      RadixNode.value
    = ((RadixNode.mk f val cs).find k0).bind RadixNode.value := by
  have hpk : commonPrefixLen f k ≤ k.length := commonPrefixLen_le_right f k
  have hpf : commonPrefixLen f k ≤ f.length := commonPrefixLen_le_left f k
  have hqf : commonPrefixLen f k0 ≤ f.length := commonPrefixLen_le_left f k0
  have hqk0 : commonPrefixLen f k0 ≤ k0.length := commonPrefixLen_le_right f k0
  have hAlen : (f.take (commonPrefixLen f k)).length = commonPrefixLen f k := by
    simp [List.length_take]
    omega
  have hBlen : (f.drop (commonPrefixLen f k)).length = f.length - commonPrefixLen f k := by
    simp [List.length_drop]
  have hAcp : commonPrefixLen (f.take (commonPrefixLen f k)) k0
      = min (commonPrefixLen f k) (commonPrefixLen f k0) :=
    commonPrefixLen_take_left _ f k0
  by_cases hqp : commonPrefixLen f k0 < commonPrefixLen f k
  · rw [RadixNode.find_divergence _ k0 rv _ (by omega),
      RadixNode.find_divergence f k0 val cs (by omega)]
  · have hcpA : commonPrefixLen (f.take (commonPrefixLen f k)) k0
        = commonPrefixLen f k := by omega
    by_cases hk0len : commonPrefixLen f k = k0.length
    · -- the query is exactly the truncated fragment
      have hq : commonPrefixLen f k0 = commonPrefixLen f k := by omega
      rw [RadixNode.find_terminal _ k0 rv _ (by omega) (by omega),
        RadixNode.find_divergence f k0 val cs (by omega)]
      rcases hrv with hrv | ⟨hkl, hrv⟩
      · rw [hrv]
        rfl
      · exfalso
        apply hk0
        have e1 : f.take (commonPrefixLen f k) = k0.take (commonPrefixLen f k) :=
          take_eq_take_of_le_commonPrefixLen _ f k0 (by omega)
        have e2 : f.take (commonPrefixLen f k) = k.take (commonPrefixLen f k) :=
          take_eq_take_of_le_commonPrefixLen _ f k (by omega)
        have e3 : k0.take (commonPrefixLen f k) = k0 := by
          rw [hk0len]
          exact List.take_length k0
        have e4 : k.take (commonPrefixLen f k) = k := by
          rw [hkl]
          exact List.take_length k
        rw [← e3, ← e1, e2, e4]
    · -- the query continues below the truncated fragment
      have hk0lt : commonPrefixLen f k < k0.length := by omega
      have hk0dlen : (k0.drop (commonPrefixLen f k)).length
          = k0.length - commonPrefixLen f k := by
        simp [List.length_drop]
      rw [RadixNode.find_descend _ k0 rv _ (by omega) (by omega), hcpA]
      by_cases hq : commonPrefixLen f k0 = commonPrefixLen f k
      · -- the query diverges right where the inserted key did
        have hdrop0 : commonPrefixLen (f.drop (commonPrefixLen f k))
            (k0.drop (commonPrefixLen f k)) = 0 := by
          have h6 := commonPrefixLen_drop_divergence f k0 (by omega) (by omega)
          rw [hq] at h6
          exact h6
        rw [findChild_cons_skip _ _ _ (by simpa using hdrop0),
          RadixNode.find_divergence f k0 val cs (by omega)]
        rcases htail with htail | ⟨hklt, htail⟩
        · rw [htail, findChild_nil]
        · rw [htail]
          have hkdlen : (k.drop (commonPrefixLen f k)).length
              = k.length - commonPrefixLen f k := by
            simp [List.length_drop]
          have hmle : commonPrefixLen (k.drop (commonPrefixLen f k))
              (k0.drop (commonPrefixLen f k))
              ≤ (k.drop (commonPrefixLen f k)).length :=
            commonPrefixLen_le_left _ _
          have hmler : commonPrefixLen (k.drop (commonPrefixLen f k))
              (k0.drop (commonPrefixLen f k))
              ≤ (k0.drop (commonPrefixLen f k)).length :=
            commonPrefixLen_le_right _ _
          by_cases hm0 : commonPrefixLen (k.drop (commonPrefixLen f k))
              (k0.drop (commonPrefixLen f k)) = 0
          · rw [findChild_cons_skip _ _ _ (by simpa using hm0), findChild_nil]
          · rw [findChild_cons_match _ _ _ (by simpa using hm0)]
            by_cases hmlt : commonPrefixLen (k.drop (commonPrefixLen f k))
                (k0.drop (commonPrefixLen f k)) < (k.drop (commonPrefixLen f k)).length
            · rw [RadixNode.find_divergence (k.drop (commonPrefixLen f k))
                (k0.drop (commonPrefixLen f k)) (some v) [] (by simpa using hmlt)]
            · by_cases hmk0 : commonPrefixLen (k.drop (commonPrefixLen f k))
                  (k0.drop (commonPrefixLen f k)) = (k0.drop (commonPrefixLen f k)).length
              · exfalso
                apply hk0
                have e0 : k.drop (commonPrefixLen f k) = k0.drop (commonPrefixLen f k) := by
                  apply eq_of_commonPrefixLen_full
                  · omega
                  · omega
                have e1 : f.take (commonPrefixLen f k) = k0.take (commonPrefixLen f k) :=
                  take_eq_take_of_le_commonPrefixLen _ f k0 (by omega)
                have e2 : f.take (commonPrefixLen f k) = k.take (commonPrefixLen f k) :=
                  take_eq_take_of_le_commonPrefixLen _ f k (by omega)
                calc k0 = k0.take (commonPrefixLen f k)
                      ++ k0.drop (commonPrefixLen f k) :=
                      (List.take_append_drop _ k0).symm
                  _ = k.take (commonPrefixLen f k) ++ k.drop (commonPrefixLen f k) := by
                      rw [← e1, e2, e0]
                  _ = k := List.take_append_drop _ k
              · rw [RadixNode.find_descend (k.drop (commonPrefixLen f k))
                  (k0.drop (commonPrefixLen f k)) (some v) [] (by simpa using hmlt)
                  (by simpa using hmk0), findChild_nil]
      · -- the query agrees with the fragment beyond the split point
        have hqgt : commonPrefixLen f k < commonPrefixLen f k0 := by omega
        have hdropq : commonPrefixLen (f.drop (commonPrefixLen f k))
            (k0.drop (commonPrefixLen f k))
            = commonPrefixLen f k0 - commonPrefixLen f k :=
          commonPrefixLen_drop_both _ f k0 (by omega)
        rw [findChild_cons_match _ _ _ (by simp only [RadixNode.fragment_mk]; omega)]
        by_cases hql : commonPrefixLen f k0 < f.length
        · rw [RadixNode.find_divergence (f.drop (commonPrefixLen f k))
              (k0.drop (commonPrefixLen f k)) val cs (by omega),
            RadixNode.find_divergence f k0 val cs hql]
        · have hqtk : commonPrefixLen f k0 = f.length := by omega
          by_cases hqk0len : commonPrefixLen f k0 = k0.length
          · rw [RadixNode.find_terminal (f.drop (commonPrefixLen f k))
                (k0.drop (commonPrefixLen f k)) val cs (by omega) (by omega),
              RadixNode.find_terminal f k0 val cs (by omega) hqk0len]
            cases val <;> rfl
          · rw [RadixNode.find_descend (f.drop (commonPrefixLen f k))
                (k0.drop (commonPrefixLen f k)) val cs (by omega) (by omega),
              RadixNode.find_descend f k0 val cs (by omega) hqk0len,
              hdropq, List.drop_drop]
            have harith : commonPrefixLen f k0 - commonPrefixLen f k
                + commonPrefixLen f k = commonPrefixLen f k0 := by omega
            have harith2 : commonPrefixLen f k
                + (commonPrefixLen f k0 - commonPrefixLen f k)
                = commonPrefixLen f k0 := by omega
            first
            | rw [harith]
            | rw [harith2]

mutual

/-- Insert leaves the value stored at every other key unchanged. -/
theorem RadixNode.get_insert_other {V : Type} :
    ∀ (n : RadixNode K V) (k : List K) (v : V) (k0 : List K), k0 ≠ k →
    (((n.insert k v).1).find k0).bind RadixNode.value
      = (n.find k0).bind RadixNode.value
  | .mk f val cs, k, v, k0 => by
    intro hk0
    have hpf : commonPrefixLen f k ≤ f.length := commonPrefixLen_le_left f k
    have hpk : commonPrefixLen f k ≤ k.length := commonPrefixLen_le_right f k
    have hqf : commonPrefixLen f k0 ≤ f.length := commonPrefixLen_le_left f k0
    have hqk0 : commonPrefixLen f k0 ≤ k0.length := commonPrefixLen_le_right f k0
    by_cases h1 : commonPrefixLen f k < f.length
    · by_cases h2 : commonPrefixLen f k = k.length
      · rw [RadixNode.insert_split_terminal f k val cs v h1 h2]
        exact radix_split_preserve_core f val cs k v k0 h1 hk0 (some v) []
          (Or.inr ⟨h2, rfl⟩) (Or.inl rfl)
      · rw [RadixNode.insert_split_descend f k val cs v h1 h2]
        exact radix_split_preserve_core f val cs k v k0 h1 hk0 none
          [RadixNode.mk (k.drop (commonPrefixLen f k)) (some v) []]
          (Or.inl rfl) (Or.inr ⟨by omega, rfl⟩)
    · by_cases h2 : commonPrefixLen f k = k.length
      · rw [RadixNode.insert_terminal f k val cs v h1 h2]
        dsimp only
        by_cases hq1 : commonPrefixLen f k0 < f.length
        · rw [RadixNode.find_divergence f k0 (some v) cs hq1,
            RadixNode.find_divergence f k0 val cs hq1]
        · by_cases hq2 : commonPrefixLen f k0 = k0.length
          · exfalso
            apply hk0
            have e1 : f = k0 := eq_of_commonPrefixLen_full f k0 (by omega) (by omega)
            have e2 : f = k := eq_of_commonPrefixLen_full f k (by omega) (by omega)
            rw [← e1, e2]
          · rw [RadixNode.find_descend f k0 (some v) cs hq1 hq2,
              RadixNode.find_descend f k0 val cs hq1 hq2]
      · rw [RadixNode.insert_descend f k val cs v h1 h2]
        dsimp only
        by_cases hq1 : commonPrefixLen f k0 < f.length
        · rw [RadixNode.find_divergence f k0 val _ hq1,
            RadixNode.find_divergence f k0 val cs hq1]
        · by_cases hq2 : commonPrefixLen f k0 = k0.length
          · rw [RadixNode.find_terminal f k0 val _ hq1 hq2,
              RadixNode.find_terminal f k0 val cs hq1 hq2]
            cases val <;> rfl
          · rw [RadixNode.find_descend f k0 val _ hq1 hq2,
              RadixNode.find_descend f k0 val cs hq1 hq2]
            have hqp : commonPrefixLen f k0 = f.length := by omega
            have hpp : commonPrefixLen f k = f.length := by omega
            have hne2 : k0.drop (commonPrefixLen f k0) ≠ k.drop (commonPrefixLen f k) := by
              intro he
              apply hk0
              have t1 : k0 = f ++ k0.drop (commonPrefixLen f k0) := by
                conv_lhs => rw [← List.take_append_drop (commonPrefixLen f k0) k0]
                congr 1
                rw [← take_eq_take_of_le_commonPrefixLen _ f k0 (le_refl _), hqp,
                  List.take_length]
              have t2 : k = f ++ k.drop (commonPrefixLen f k) := by
                conv_lhs => rw [← List.take_append_drop (commonPrefixLen f k) k]
                congr 1
                rw [← take_eq_take_of_le_commonPrefixLen _ f k (le_refl _), hpp,
                  List.take_length]
              rw [t1, t2, he]
            exact getChild_insertChild_other cs (k.drop (commonPrefixLen f k)) v
              (k0.drop (commonPrefixLen f k0)) hne2

/-- insertChild leaves the value stored at every other key unchanged. -/
theorem getChild_insertChild_other {V : Type} :
    ∀ (cs : List (RadixNode K V)) (k : List K) (v : V) (k0 : List K), k0 ≠ k →
    (findChild (insertChild cs k v).1 k0).bind RadixNode.value
      = (findChild cs k0).bind RadixNode.value
  | [], k, v, k0 => by
    intro hk0
    rw [insertChild_nil, findChild_nil]
    dsimp only
    have hml : commonPrefixLen k k0 ≤ k.length := commonPrefixLen_le_left k k0
    have hmr : commonPrefixLen k k0 ≤ k0.length := commonPrefixLen_le_right k k0
    by_cases hm : commonPrefixLen k k0 = 0
    · rw [findChild_cons_skip _ _ _ (by simpa using hm), findChild_nil]
    · rw [findChild_cons_match _ _ _ (by simpa using hm)]
      by_cases hlt : commonPrefixLen k k0 < k.length
      · rw [RadixNode.find_divergence k k0 (some v) [] hlt]
      · by_cases hk0l : commonPrefixLen k k0 = k0.length
        · exact absurd (eq_of_commonPrefixLen_full k k0 (by omega) (by omega)).symm hk0
        · rw [RadixNode.find_descend k k0 (some v) [] hlt hk0l, findChild_nil]
  | c :: cs, k, v, k0 => by
    intro hk0
    by_cases hc : commonPrefixLen c.fragment k ≠ 0
    · rw [insertChild_cons_match c cs k v hc]
      dsimp only
      have hfrag := RadixNode.insert_fragment c k v
      by_cases h0 : commonPrefixLen c.fragment k0 = 0
      · have hz : commonPrefixLen ((c.insert k v).1).fragment k0 = 0 := by
          rw [hfrag, commonPrefixLen_take_left]
          omega
        rw [findChild_cons_skip _ _ _ hz, findChild_cons_skip c cs k0 h0]
      · have hz : commonPrefixLen ((c.insert k v).1).fragment k0 ≠ 0 := by
          rw [hfrag, commonPrefixLen_take_left]
          omega
        rw [findChild_cons_match _ _ _ hz, findChild_cons_match c cs k0 (by omega)]
        exact RadixNode.get_insert_other c k v k0 hk0
    · rw [insertChild_cons_skip c cs k v (by omega)]
      dsimp only
      by_cases h0 : commonPrefixLen c.fragment k0 = 0
      · rw [findChild_cons_skip c _ k0 h0, findChild_cons_skip c cs k0 h0]
        exact getChild_insertChild_other cs k v k0 hk0
      · rw [findChild_cons_match c _ k0 (by omega), findChild_cons_match c cs k0 (by omega)]

end

/-- The empty root stores nothing: find composed with the value slot is
always none. -/
theorem RadixNode.find_empty {V : Type} (k : List K) :
    ((RadixNode.empty : RadixNode K V).find k).bind RadixNode.value = none := by
  rw [RadixNode.empty]
  by_cases hk : k = []
  · subst hk
    rw [RadixNode.find_terminal [] [] none [] (by simp) (by simp)]
    simp
  · rw [RadixNode.find_descend [] k none [] (by simp)
      (by
        simp only [commonPrefixLen_nil_left]
        intro h
        exact hk (List.length_eq_zero.mp h.symm)), findChild_nil]
    rfl

/-- Inserting the empty key into a node with an empty fragment only writes
the value slot: no split happens and no child is created. -/
theorem RadixNode.insert_nil_key {V : Type} (n : RadixNode K V) (v : V)
    (h : n.fragment = []) :
    n.insert [] v = (RadixNode.mk [] (some v) n.children, n.value) := by
  obtain ⟨f, val, cs⟩ := n
  simp only [RadixNode.fragment_mk] at h
  subst h
  rw [RadixNode.insert_terminal [] [] val cs v (by simp) (by simp)]
  rfl

/-! PrefixMap-level lemmas. -/

namespace PrefixMap

variable {V : Type}

theorem root_insert_fst (m : PrefixMap K V) (k : List K) (v : V) :
    ((m.insert k v).1).root = (m.root.insert k v).1 := rfl

theorem map_insert_snd_eq_get (m : PrefixMap K V) (k : List K) (v : V) :
    (m.insert k v).2 = m.get k :=
  RadixNode.insert_snd_eq_get m.root k v

theorem map_get_insert_self (m : PrefixMap K V) (k : List K) (v : V) :
    ((m.insert k v).1).get k = some v :=
  RadixNode.get_insert_self m.root k v

theorem map_get_insert_other (m : PrefixMap K V) (k : List K) (v : V) (k0 : List K)
    (h : k0 ≠ k) : ((m.insert k v).1).get k0 = m.get k0 :=
  RadixNode.get_insert_other m.root k v k0 h

theorem length_insert (m : PrefixMap K V) (k : List K) (v : V) :
    ((m.insert k v).1).length
      = if (m.get k).isSome then m.length else m.length + 1 := by
  show (if (m.root.insert k v).2.isNone then m.length + 1 else m.length) = _
  rw [RadixNode.insert_snd_eq_get m.root k v]
  show (if (m.get k).isNone then m.length + 1 else m.length) = _
  cases hg : m.get k <;> simp [hg]

theorem get_empty (k : List K) : (PrefixMap.new : PrefixMap K V).get k = none :=
  RadixNode.find_empty k

theorem get_foldl_of_not_mem :
    ∀ (ps : List (List K × V)) (m : PrefixMap K V) (k : List K),
    k ∉ ps.map Prod.fst →
    (ps.foldl (fun m kv => (m.insert kv.1 kv.2).1) m).get k = m.get k
  | [], _, _, _ => rfl
  | kv :: rest, m, k, h => by
    rw [List.foldl_cons]
    simp only [List.map_cons, List.mem_cons, not_or] at h
    obtain ⟨hne, hnm⟩ := h
    rw [get_foldl_of_not_mem rest _ k hnm, map_get_insert_other m kv.1 kv.2 k hne]

theorem get_foldl_of_mem :
    ∀ (ps : List (List K × V)) (m : PrefixMap K V),
    ((ps.map Prod.fst).Nodup) → ∀ kv ∈ ps,
    (ps.foldl (fun m kv => (m.insert kv.1 kv.2).1) m).get kv.1 = some kv.2
  | [], _, _, kv, h => absurd h (List.not_mem_nil kv)
  | kv0 :: rest, m, hnd, kv, h => by
    rw [List.foldl_cons]
    simp only [List.map_cons, List.nodup_cons] at hnd
    obtain ⟨hk0, hndr⟩ := hnd
    rcases List.mem_cons.mp h with rfl | hmem
    · rw [get_foldl_of_not_mem rest _ kv.1 hk0, map_get_insert_self m kv.1 kv.2]
    · exact get_foldl_of_mem rest _ hndr kv hmem

theorem length_foldl_fresh :
    ∀ (ps : List (List K × V)) (m : PrefixMap K V),
    ((ps.map Prod.fst).Nodup) → (∀ k ∈ ps.map Prod.fst, m.get k = none) →
    (ps.foldl (fun m kv => (m.insert kv.1 kv.2).1) m).length = m.length + ps.length
  | [], m, _, _ => by simp
  | kv0 :: rest, m, hnd, hfresh => by
    rw [List.foldl_cons]
    simp only [List.map_cons, List.nodup_cons] at hnd
    obtain ⟨hk0, hndr⟩ := hnd
    have hg0 : m.get kv0.1 = none := hfresh kv0.1 (by simp)
    have hlen := length_insert m kv0.1 kv0.2
    rw [hg0] at hlen
    simp only [Option.isSome_none, Bool.false_eq_true, if_false] at hlen
    rw [length_foldl_fresh rest _ hndr (by
      intro k hk
      have hkne : k ≠ kv0.1 := by
        intro he
        rw [he] at hk
        exact hk0 hk
      rw [map_get_insert_other m kv0.1 kv0.2 k hkne]
      exact hfresh k (by simp [hk])), hlen]
    simp
    omega

theorem ofList_root_fragment_aux :
    ∀ (ps : List (List K × V)) (m : PrefixMap K V), m.root.fragment = [] →
    (ps.foldl (fun m kv => (m.insert kv.1 kv.2).1) m).root.fragment = []
  | [], _, h => h
  | kv :: rest, m, h => by
    rw [List.foldl_cons]
    apply ofList_root_fragment_aux rest
    rw [root_insert_fst, RadixNode.insert_fragment, h]
    simp

theorem ofList_root_fragment (ps : List (List K × V)) :
    (PrefixMap.ofList ps).root.fragment = [] :=
  ofList_root_fragment_aux ps PrefixMap.new rfl

end PrefixMap

/-! Claims C1, C2 and C5. -/

/-- C1: for every sequence of insertions with pairwise distinct keys into a
fresh PrefixMap, get afterwards returns exactly the value inserted for each
key, and len equals the number of distinct keys inserted. -/
theorem round_trip_distinct_keys {V : Type} (ps : List (List K × V))
    (h : (ps.map Prod.fst).Nodup) :
    (∀ kv ∈ ps, (PrefixMap.ofList ps).get kv.1 = some kv.2) ∧
    (PrefixMap.ofList ps).len = ps.length := by
  constructor
  · intro kv hm
    exact PrefixMap.get_foldl_of_mem ps PrefixMap.new h kv hm
  · have h2 := PrefixMap.length_foldl_fresh ps PrefixMap.new h
      (fun k _ => PrefixMap.get_empty k)
    simpa [PrefixMap.len, PrefixMap.new] using h2

/-- Witness for C1: two bindings with distinct keys are both retrievable
and counted. -/
theorem round_trip_distinct_keys_witness :
    (PrefixMap.ofList [([1], 10), ([2], 20)]).get [1] = some (10 : Nat) ∧
    (PrefixMap.ofList [([1], 10), ([2], 20)]).get [2] = some 20 ∧
    (PrefixMap.ofList [(([1] : List Nat), (10 : Nat)), ([2], 20)]).len = 2 := by
  have h := round_trip_distinct_keys [(([1] : List Nat), (10 : Nat)), ([2], 20)] (by decide)
  exact ⟨h.1 ([1], 10) (by decide), h.1 ([2], 20) (by decide), by simpa using h.2⟩

/-- C2: on a fresh PrefixMap, the first insert of a key returns none, a
second insert of the same key returns the first value, leaves the length
unchanged, and get afterwards returns the second value. -/
theorem overwrite_semantics {V : Type} (k : List K) (a b : V) :
    ((PrefixMap.new : PrefixMap K V).insert k a).2 = none ∧
    ((((PrefixMap.new : PrefixMap K V).insert k a).1).insert k b).2 = some a ∧
    (((((PrefixMap.new : PrefixMap K V).insert k a).1).insert k b).1).length
      = (((PrefixMap.new : PrefixMap K V).insert k a).1).length ∧
    (((((PrefixMap.new : PrefixMap K V).insert k a).1).insert k b).1).get k = some b := by
  refine ⟨?_, ?_, ?_, PrefixMap.map_get_insert_self _ k b⟩
  · rw [PrefixMap.map_insert_snd_eq_get, PrefixMap.get_empty]
  · rw [PrefixMap.map_insert_snd_eq_get, PrefixMap.map_get_insert_self]
  · rw [PrefixMap.length_insert, PrefixMap.map_get_insert_self]
    rfl

/-- C5: inserting the empty key into a map built by insertions only
initializes or overwrites the root value slot, creating no split and no
child; get of the empty key then returns the value; and on a fresh map
get of the empty key and of every other key returns none. -/
theorem empty_key_handling {V : Type} (ps : List (List K × V)) (v : V) :
    (((PrefixMap.ofList ps).insert [] v).1.root
      = RadixNode.mk [] (some v) ((PrefixMap.ofList ps).root.children)) ∧
    (((PrefixMap.ofList ps).insert [] v).1.get [] = some v) ∧
    (∀ k : List K, (PrefixMap.new : PrefixMap K V).get k = none) := by
  refine ⟨?_, PrefixMap.map_get_insert_self _ [] v, fun k => PrefixMap.get_empty k⟩
  rw [PrefixMap.root_insert_fst,
    RadixNode.insert_nil_key (PrefixMap.ofList ps).root v (PrefixMap.ofList_root_fragment ps)]

/-! Preservation of the branch invariant (pairwise disjoint sibling
fragments) and of fragment nonemptiness below the root. -/

theorem headDisjoint_iff {V : Type} (f : List K) (cs : List (RadixNode K V)) :
    headDisjoint f cs = true ↔ ∀ c ∈ cs, commonPrefixLen f c.fragment = 0 := by
  induction cs with
  | nil => simp [headDisjoint]
  | cons c cs ih => simp [headDisjoint, ih]

theorem headDisjoint_take {V : Type} (f : List K) (cs : List (RadixNode K V)) (n : Nat)
    (h : headDisjoint f cs = true) : headDisjoint (f.take n) cs = true := by
  rw [headDisjoint_iff] at h ⊢
  intro c hc
  rw [commonPrefixLen_take_left, h c hc]
  omega

theorem headDisjoint_insertChild {V : Type} :
    ∀ (cs : List (RadixNode K V)) (f k : List K) (v : V),
    headDisjoint f cs = true → commonPrefixLen f k = 0 →
    headDisjoint f (insertChild cs k v).1 = true
  | [], f, k, v, _, hk => by
    rw [insertChild_nil]
    simp [headDisjoint, hk]
  | c :: cs, f, k, v, h, hk => by
    simp only [headDisjoint, Bool.and_eq_true, decide_eq_true_eq] at h
    obtain ⟨hfc, hrest⟩ := h
    by_cases hc : commonPrefixLen c.fragment k ≠ 0
    · rw [insertChild_cons_match c cs k v hc]
      simp only [headDisjoint, Bool.and_eq_true, decide_eq_true_eq]
      refine ⟨?_, hrest⟩
      rw [RadixNode.insert_fragment, commonPrefixLen_take_right, hfc]
      omega
    · rw [insertChild_cons_skip c cs k v (by omega)]
      simp only [headDisjoint, Bool.and_eq_true, decide_eq_true_eq]
      exact ⟨hfc, headDisjoint_insertChild cs f k v hrest hk⟩

mutual

/-- Insert preserves the branch invariant. -/
theorem RadixNode.disjB_insert {V : Type} :
    ∀ (n : RadixNode K V) (k : List K) (v : V),
    n.disjB = true → ((n.insert k v).1).disjB = true
  | .mk f val cs, k, v => by
    intro h
    simp only [RadixNode.disjB] at h
    by_cases h1 : commonPrefixLen f k < f.length
    · by_cases h2 : commonPrefixLen f k = k.length
      · rw [RadixNode.insert_split_terminal f k val cs v h1 h2]
        simp [RadixNode.disjB, disjListB, headDisjoint, h]
      · rw [RadixNode.insert_split_descend f k val cs v h1 h2]
        simp [RadixNode.disjB, disjListB, headDisjoint, h]
        exact radix_split_detached_no_match f k h1 h2
    · by_cases h2 : commonPrefixLen f k = k.length
      · rw [RadixNode.insert_terminal f k val cs v h1 h2]
        simpa [RadixNode.disjB] using h
      · rw [RadixNode.insert_descend f k val cs v h1 h2]
        simp only [RadixNode.disjB]
        exact disjListB_insertChild cs (k.drop (commonPrefixLen f k)) v h

/-- insertChild preserves the branch invariant. -/
theorem disjListB_insertChild {V : Type} :
    ∀ (cs : List (RadixNode K V)) (k : List K) (v : V),
    disjListB cs = true → disjListB (insertChild cs k v).1 = true
  | [], k, v, _ => by
    rw [insertChild_nil]
    simp [disjListB, RadixNode.disjB, headDisjoint]
  | c :: cs, k, v, h => by
    simp only [disjListB, Bool.and_eq_true] at h
    obtain ⟨⟨hhead, hcd⟩, hrest⟩ := h
    by_cases hc : commonPrefixLen c.fragment k ≠ 0
    · rw [insertChild_cons_match c cs k v hc]
      simp only [disjListB, Bool.and_eq_true]
      refine ⟨⟨?_, RadixNode.disjB_insert c k v hcd⟩, hrest⟩
      rw [RadixNode.insert_fragment]
      exact headDisjoint_take c.fragment cs _ hhead
    · rw [insertChild_cons_skip c cs k v (by omega)]
      simp only [disjListB, Bool.and_eq_true]
      exact ⟨⟨headDisjoint_insertChild cs c.fragment k v hhead (by omega), hcd⟩,
        disjListB_insertChild cs k v hrest⟩

end

theorem bnot_isEmpty_of_ne_nil {A : Type} (l : List A) (h : l ≠ []) :
    (!l.isEmpty) = true := by
  cases l with
  | nil => exact absurd rfl h
  | cons x xs => rfl

mutual

/-- Insert keeps every fragment strictly below a node nonempty. -/
theorem RadixNode.neB_insert {V : Type} :
    ∀ (n : RadixNode K V) (k : List K) (v : V),
    n.neB = true → ((n.insert k v).1).neB = true
  | .mk f val cs, k, v => by
    intro h
    simp only [RadixNode.neB] at h
    have hpf : commonPrefixLen f k ≤ f.length := commonPrefixLen_le_left f k
    have hpk : commonPrefixLen f k ≤ k.length := commonPrefixLen_le_right f k
    have hdropf : f.drop (commonPrefixLen f k) ≠ [] → True := fun _ => trivial
    by_cases h1 : commonPrefixLen f k < f.length
    · have hdne : f.drop (commonPrefixLen f k) ≠ [] := by
        apply List.ne_nil_of_length_pos
        simp [List.length_drop]
        omega
      by_cases h2 : commonPrefixLen f k = k.length
      · rw [RadixNode.insert_split_terminal f k val cs v h1 h2]
        simp only [RadixNode.neB, neListB, Bool.and_eq_true]
        exact ⟨⟨bnot_isEmpty_of_ne_nil _ (by simpa using hdne), by simpa [RadixNode.neB] using h⟩, trivial⟩
      · have hkne : k.drop (commonPrefixLen f k) ≠ [] := by
          apply List.ne_nil_of_length_pos
          simp [List.length_drop]
          omega
        rw [RadixNode.insert_split_descend f k val cs v h1 h2]
        simp only [RadixNode.neB, neListB, Bool.and_eq_true]
        refine ⟨⟨bnot_isEmpty_of_ne_nil _ (by simpa using hdne),
          by simpa [RadixNode.neB] using h⟩,
          ⟨bnot_isEmpty_of_ne_nil _ (by simpa using hkne), trivial⟩, trivial⟩
    · by_cases h2 : commonPrefixLen f k = k.length
      · rw [RadixNode.insert_terminal f k val cs v h1 h2]
        simpa [RadixNode.neB] using h
      · rw [RadixNode.insert_descend f k val cs v h1 h2]
        simp only [RadixNode.neB]
        apply neListB_insertChild cs (k.drop (commonPrefixLen f k)) v ?_ h
        apply List.ne_nil_of_length_pos
        simp [List.length_drop]
        omega

/-- insertChild keeps every fragment in the child list nonempty when the
inserted key is nonempty. -/
theorem neListB_insertChild {V : Type} :
    ∀ (cs : List (RadixNode K V)) (k : List K) (v : V), k ≠ [] →
    neListB cs = true → neListB (insertChild cs k v).1 = true
  | [], k, v, hk, _ => by
    rw [insertChild_nil]
    simp only [neListB, Bool.and_eq_true, RadixNode.neB]
    exact ⟨⟨bnot_isEmpty_of_ne_nil _ (by simpa using hk), trivial⟩, trivial⟩
  | c :: cs, k, v, hk, h => by
    simp only [neListB, Bool.and_eq_true] at h
    obtain ⟨⟨hne, hcn⟩, hrest⟩ := h
    by_cases hc : commonPrefixLen c.fragment k ≠ 0
    · rw [insertChild_cons_match c cs k v hc]
      simp only [neListB, Bool.and_eq_true]
      refine ⟨⟨?_, RadixNode.neB_insert c k v hcn⟩, hrest⟩
      rw [RadixNode.insert_fragment]
      have hcf : c.fragment ≠ [] := by
        intro he
        rw [he] at hc
        simp at hc
      have hlp : 0 < c.fragment.length := List.length_pos.mpr hcf
      apply bnot_isEmpty_of_ne_nil
      apply List.ne_nil_of_length_pos
      simp [List.length_take]
      omega
    · rw [insertChild_cons_skip c cs k v (by omega)]
      simp only [neListB, Bool.and_eq_true]
      exact ⟨⟨hne, hcn⟩, neListB_insertChild cs k v hk hrest⟩

end

/-- The branch invariant implies the propositional pairwise reading on the
immediate children. -/
theorem disjListB_pairwise {V : Type} :
    ∀ (cs : List (RadixNode K V)), disjListB cs = true →
    cs.Pairwise (fun c d => commonPrefixLen c.fragment d.fragment = 0)
  | [], _ => List.Pairwise.nil
  | c :: cs, h => by
    simp only [disjListB, Bool.and_eq_true] at h
    obtain ⟨⟨hhead, _⟩, hrest⟩ := h
    exact List.Pairwise.cons ((headDisjoint_iff c.fragment cs).mp hhead)
      (disjListB_pairwise cs hrest)

theorem ofList_root_disjB_aux {V : Type} :
    ∀ (ps : List (List K × V)) (m : PrefixMap K V), m.root.disjB = true →
    (ps.foldl (fun m kv => (m.insert kv.1 kv.2).1) m).root.disjB = true
  | [], _, h => h
  | kv :: rest, m, h => by
    rw [List.foldl_cons]
    exact ofList_root_disjB_aux rest _ (RadixNode.disjB_insert m.root kv.1 kv.2 h)

theorem ofList_root_disjB {V : Type} (ps : List (List K × V)) :
    (PrefixMap.ofList ps).root.disjB = true :=
  ofList_root_disjB_aux ps PrefixMap.new (by
    show (RadixNode.empty : RadixNode K V).disjB = true
    rw [RadixNode.empty]
    simp [RadixNode.disjB, disjListB])

theorem ofList_root_neB_aux {V : Type} :
    ∀ (ps : List (List K × V)) (m : PrefixMap K V), m.root.neB = true →
    (ps.foldl (fun m kv => (m.insert kv.1 kv.2).1) m).root.neB = true
  | [], _, h => h
  | kv :: rest, m, h => by
    rw [List.foldl_cons]
    exact ofList_root_neB_aux rest _ (RadixNode.neB_insert m.root kv.1 kv.2 h)

theorem ofList_root_neB {V : Type} (ps : List (List K × V)) :
    (PrefixMap.ofList ps).root.neB = true :=
  ofList_root_neB_aux ps PrefixMap.new (by
    show (RadixNode.empty : RadixNode K V).neB = true
    rw [RadixNode.empty]
    simp [RadixNode.neB, neListB])

/-! Claims C4 and C9. -/

/-- C4: after any sequence of insertions into a fresh map, at every node of
the resulting tree no two children (sibling) fragments share a
nonzero-length common prefix: the recursive boolean invariant holds, and in
particular the root children fragments are pairwise prefix-disjoint. -/
theorem sibling_fragments_disjoint {V : Type} (ps : List (List K × V)) :
    ((PrefixMap.ofList ps).root.disjB = true) ∧
    ((PrefixMap.ofList ps).root.children.Pairwise
      (fun c d => commonPrefixLen c.fragment d.fragment = 0)) := by
  have h := ofList_root_disjB ps
  refine ⟨h, ?_⟩
  rcases hr : (PrefixMap.ofList ps).root with ⟨f, val, cs⟩
  rw [hr] at h
  simp only [RadixNode.disjB] at h
  simpa using disjListB_pairwise cs h

theorem applyOps_length_aux {V : Type} :
    ∀ (ops : List (MapOp K V)) (m : PrefixMap K V),
    m.length = m.root.countValues →
    (ops.foldl applyOp m).length = (ops.foldl applyOp m).root.countValues
  | [], _, h => h
  | op :: rest, m, h => by
    rw [List.foldl_cons]
    apply applyOps_length_aux rest
    cases op with
    | ins k v =>
      show ((m.insert k v).1).length = ((m.insert k v).1).root.countValues
      rw [PrefixMap.length_insert, PrefixMap.root_insert_fst,
        RadixNode.countValues_insert, RadixNode.insert_snd_eq_get, h]
      show (if (m.get k).isSome then _ else _)
        = _ + (if (m.get k).isSome then (0 : Nat) else 1)
      cases m.get k <;> simp
    | clear =>
      show (PrefixMap.new : PrefixMap K V).length
        = (PrefixMap.new : PrefixMap K V).root.countValues
      show 0 = (RadixNode.empty : RadixNode K V).countValues
      rw [RadixNode.empty]
      simp [RadixNode.countValues, countValuesList]

/-- C9: after every sequence of PrefixMap operations (new, insert, clear)
the stored length counter equals the number of value-bearing nodes
reachable from the root, so len and is_empty report exactly the number of
stored entries. -/
theorem length_counter_invariant {V : Type} (ops : List (MapOp K V)) :
    ((applyOps ops).len = (applyOps ops).root.countValues) ∧
    ((applyOps ops).is_empty = true ↔ (applyOps ops).root.countValues = 0) := by
  have h : (applyOps ops).length = (applyOps ops).root.countValues :=
    applyOps_length_aux ops PrefixMap.new (by
      show 0 = (RadixNode.empty : RadixNode K V).countValues
      rw [RadixNode.empty]
      simp [RadixNode.countValues, countValuesList])
  refine ⟨h, ?_⟩
  rw [PrefixMap.is_empty, PrefixMap.len, h]
  simp

/-! The pure enumeration entriesOf/entriesList against find and get. -/

theorem cp_zero_append_ne {a b : List K} (h : commonPrefixLen a b = 0)
    (ha : a ≠ []) (hb : b ≠ []) (t u : List K) : a ++ t ≠ b ++ u := by
  obtain ⟨x, as, rfl⟩ := List.exists_cons_of_ne_nil ha
  obtain ⟨y, bs, rfl⟩ := List.exists_cons_of_ne_nil hb
  have hxy : x ≠ y := by
    intro he
    rw [he, commonPrefixLen_cons_self] at h
    omega
  intro he
  simp only [List.cons_append, List.cons.injEq] at he
  exact hxy he.1

mutual

theorem length_entriesOf {V : Type} :
    ∀ (n : RadixNode K V) (pre : List K), (entriesOf n pre).length = n.countValues
  | .mk f val cs, pre => by
    rw [entriesOf.eq_def]
    dsimp only
    cases val with
    | none => simp [RadixNode.countValues, length_entriesList cs (pre ++ f)]
    | some v =>
      simp [RadixNode.countValues, length_entriesList cs (pre ++ f)]
      omega

theorem length_entriesList {V : Type} :
    ∀ (cs : List (RadixNode K V)) (pre : List K),
    (entriesList cs pre).length = countValuesList cs
  | [], _ => rfl
  | c :: cs, pre => by
    rw [entriesList.eq_def]
    dsimp only
    simp [countValuesList, length_entriesOf c pre, length_entriesList cs pre]

end

mutual

theorem entriesOf_shape {V : Type} :
    ∀ (n : RadixNode K V) (pre k : List K) (w : V), (k, w) ∈ entriesOf n pre →
    ∃ t, k = pre ++ n.fragment ++ t
  | .mk f val cs, pre, k, w => by
    intro hm
    rw [entriesOf.eq_def] at hm
    dsimp only at hm
    rw [List.mem_append] at hm
    rcases hm with hm | hm
    · cases val with
      | none => simp at hm
      | some v =>
        simp only [List.mem_singleton, Prod.mk.injEq] at hm
        exact ⟨[], by simp [hm.1]⟩
    · obtain ⟨c2, t2, _, ht⟩ := entriesList_shape cs (pre ++ f) k w hm
      exact ⟨c2.fragment ++ t2, by simp [ht]⟩

theorem entriesList_shape {V : Type} :
    ∀ (cs : List (RadixNode K V)) (pre k : List K) (w : V),
    (k, w) ∈ entriesList cs pre →
    ∃ c2 t2, c2 ∈ cs ∧ k = pre ++ c2.fragment ++ t2
  | [], _, _, _ => by
    intro hm
    rw [entriesList.eq_def] at hm
    simp at hm
  | c :: cs, pre, k, w => by
    intro hm
    rw [entriesList.eq_def] at hm
    dsimp only at hm
    rw [List.mem_append] at hm
    rcases hm with hm | hm
    · obtain ⟨t, ht⟩ := entriesOf_shape c pre k w hm
      exact ⟨c, t, by simp, ht⟩
    · obtain ⟨c2, t2, hc2, ht⟩ := entriesList_shape cs pre k w hm
      exact ⟨c2, t2, by simp [hc2], ht⟩

end

theorem commonPrefixLen_append_of_zero (a b t : List K)
    (h : commonPrefixLen a b = 0) (hb : b ≠ []) :
    commonPrefixLen a (b ++ t) = 0 := by
  cases a with
  | nil => simp
  | cons x as =>
    cases b with
    | nil => exact absurd rfl hb
    | cons y bs =>
      rw [commonPrefixLen_cons] at h
      by_cases hxy : x = y
      · rw [if_pos hxy] at h; omega
      · simp [List.cons_append, commonPrefixLen_cons, hxy]

theorem mem_neListB {V : Type} (cs : List (RadixNode K V)) (c : RadixNode K V)
    (h : neListB cs = true) (hm : c ∈ cs) : c.fragment ≠ [] ∧ c.neB = true := by
  induction cs with
  | nil => simp at hm
  | cons d ds ih =>
    simp only [neListB, Bool.and_eq_true] at h
    rcases List.mem_cons.mp hm with he | hm2
    · subst he
      refine ⟨?_, h.1.2⟩
      intro h0
      have hb := h.1.1
      rw [h0] at hb
      simp at hb
    · exact ih h.2 hm2

mutual

/-- A pair is enumerated below a node exactly when find retrieves its
value, given the branch invariant and nonempty fragments below. -/
theorem mem_entriesOf_iff {V : Type} :
    ∀ (n : RadixNode K V) (pre s : List K) (w : V),
    n.disjB = true → n.neB = true →
    ((pre ++ s, w) ∈ entriesOf n pre ↔ (n.find s).bind RadixNode.value = some w)
  | .mk f val cs, pre, s, w => by
    intro hd hn
    simp only [RadixNode.disjB] at hd
    simp only [RadixNode.neB] at hn
    have hle : commonPrefixLen f s ≤ f.length := commonPrefixLen_le_left f s
    have hler : commonPrefixLen f s ≤ s.length := commonPrefixLen_le_right f s
    rw [entriesOf.eq_def]
    dsimp only
    rw [List.mem_append]
    by_cases h1 : commonPrefixLen f s < f.length
    · -- the key diverges inside the fragment: nothing is enumerated for it
      rw [RadixNode.find_divergence f s val cs h1]
      have hb : (none : Option (RadixNode K V)).bind RadixNode.value = none := rfl
      rw [hb]
      constructor
      · intro hm
        exfalso
        rcases hm with hm | hm
        · cases val with
          | none => simp at hm
          | some v =>
            simp only [List.mem_singleton, Prod.mk.injEq] at hm
            have he : s = f := List.append_cancel_left hm.1
            rw [he, commonPrefixLen_self] at h1
            omega
        · obtain ⟨c2, t2, _, ht⟩ := entriesList_shape cs (pre ++ f) _ w hm
          rw [List.append_assoc, List.append_assoc] at ht
          have hs : s = f ++ (c2.fragment ++ t2) := List.append_cancel_left ht
          rw [hs, commonPrefixLen_append_right] at h1
          omega
      · intro hm
        simp at hm
    · have hfe : commonPrefixLen f s = f.length := by omega
      have hnotail : ∀ w2 : V, s = f →
          (pre ++ s, w2) ∈ entriesList cs (pre ++ f) → False := by
        intro w2 hsf hm
        obtain ⟨c2, t2, hc2, ht⟩ := entriesList_shape cs (pre ++ f) _ w2 hm
        rw [List.append_assoc, List.append_assoc] at ht
        have hs : s = f ++ (c2.fragment ++ t2) := List.append_cancel_left ht
        have hlen := congrArg List.length hs
        simp only [List.length_append] at hlen
        rw [hsf] at hlen
        have hfz : c2.fragment.length = 0 := by omega
        exact (mem_neListB cs c2 hn hc2).1 (List.length_eq_zero.mp hfz)
      by_cases h2 : commonPrefixLen f s = s.length
      · -- the key is exactly the fragment: the node itself decides
        have hsf : f = s := eq_of_commonPrefixLen_full f s hfe (by omega)
        rw [RadixNode.find_terminal f s val cs h1 h2]
        cases val with
        | some v =>
          rw [if_pos (by simp)]
          have hbind : (some (RadixNode.mk f (some v) cs)).bind RadixNode.value
              = some v := rfl
          rw [hbind]
          constructor
          · intro hm
            rcases hm with hm | hm
            · simp only [List.mem_singleton, Prod.mk.injEq] at hm
              rw [hm.2]
            · exact absurd hm (hnotail w hsf.symm)
          · intro hm
            left
            simp only [Option.some.injEq] at hm
            simp only [List.mem_singleton, Prod.mk.injEq]
            exact ⟨by rw [hsf], hm.symm⟩
        | none =>
          rw [if_neg (by simp)]
          have hb : (none : Option (RadixNode K V)).bind RadixNode.value = none := rfl
          rw [hb]
          constructor
          · intro hm
            exfalso
            rcases hm with hm | hm
            · simp at hm
            · exact hnotail w hsf.symm hm
          · intro hm
            simp at hm
      · -- descend: strip the fragment and look among the children
        rw [RadixNode.find_descend f s val cs h1 h2, hfe]
        have hlt : f.length < s.length := by omega
        have hsplit : s = f ++ s.drop f.length := by
          have h3 := append_take_drop_of_commonPrefixLen f.length f s (by omega)
          rwa [List.take_length] at h3
        constructor
        · intro hm
          rcases hm with hm | hm
          · exfalso
            cases val with
            | none => simp at hm
            | some v =>
              simp only [List.mem_singleton, Prod.mk.injEq] at hm
              have he : s = f := List.append_cancel_left hm.1
              rw [he] at hlt
              omega
          · have hm2 : ((pre ++ f) ++ s.drop f.length, w)
                ∈ entriesList cs (pre ++ f) := by
              rw [List.append_assoc, ← hsplit]
              exact hm
            exact (mem_entriesList_iff cs (pre ++ f) (s.drop f.length) w hd hn).mp hm2
        · intro hm
          right
          have hm2 := (mem_entriesList_iff cs (pre ++ f) (s.drop f.length) w hd hn).mpr hm
          rw [List.append_assoc, ← hsplit] at hm2
          exact hm2

theorem mem_entriesList_iff {V : Type} :
    ∀ (cs : List (RadixNode K V)) (pre s : List K) (w : V),
    disjListB cs = true → neListB cs = true →
    ((pre ++ s, w) ∈ entriesList cs pre
      ↔ (findChild cs s).bind RadixNode.value = some w)
  | [], pre, s, w => by
    intro _ _
    rw [entriesList.eq_def, findChild_nil]
    simp
  | c :: cs, pre, s, w => by
    intro hd hn
    simp only [disjListB, Bool.and_eq_true] at hd
    simp only [neListB, Bool.and_eq_true] at hn
    have hcfrag : c.fragment ≠ [] := by
      intro h0
      have hb := hn.1.1
      rw [h0] at hb
      simp at hb
    rw [entriesList.eq_def]
    dsimp only
    rw [List.mem_append]
    by_cases hm0 : commonPrefixLen c.fragment s = 0
    · rw [findChild_cons_skip c cs s hm0]
      constructor
      · intro hm
        rcases hm with hm | hm
        · exfalso
          obtain ⟨t, ht⟩ := entriesOf_shape c pre _ w hm
          rw [List.append_assoc] at ht
          have hs : s = c.fragment ++ t := List.append_cancel_left ht
          rw [hs, commonPrefixLen_append_right] at hm0
          exact hcfrag (List.length_eq_zero.mp hm0)
        · exact (mem_entriesList_iff cs pre s w hd.2 hn.2).mp hm
      · intro hm
        right
        exact (mem_entriesList_iff cs pre s w hd.2 hn.2).mpr hm
    · rw [findChild_cons_match c cs s hm0]
      constructor
      · intro hm
        rcases hm with hm | hm
        · exact (mem_entriesOf_iff c pre s w hd.1.2 hn.1.2).mp hm
        · exfalso
          obtain ⟨c2, t2, hc2, ht⟩ := entriesList_shape cs pre _ w hm
          rw [List.append_assoc] at ht
          have hs : s = c2.fragment ++ t2 := List.append_cancel_left ht
          have hdisj := (headDisjoint_iff c.fragment cs).mp hd.1.1 c2 hc2
          have hc2frag := (mem_neListB cs c2 hn.2 hc2).1
          apply hm0
          rw [hs]
          exact commonPrefixLen_append_of_zero c.fragment c2.fragment t2 hdisj hc2frag
      · intro hm
        left
        exact (mem_entriesOf_iff c pre s w hd.1.2 hn.1.2).mpr hm

end

/-! Iterator machinery: unfolding equations, the loop characterization
against remEntries, and the run of the iterator on maps built by ofList. -/

theorem RadixNode.weight_eq {V : Type} (t : RadixNode K V) :
    t.weight = 2 + weightList t.children := by
  obtain ⟨f, val, cs⟩ := t
  simp [RadixNode.weight]

theorem RadixNode.countValues_eq {V : Type} (n : RadixNode K V) :
    n.countValues = (if n.value.isSome then 1 else 0) + countValuesList n.children := by
  obtain ⟨f, val, cs⟩ := n
  simp [RadixNode.countValues]

theorem RadixNode.disjListB_children {V : Type} (n : RadixNode K V)
    (h : n.disjB = true) : disjListB n.children = true := by
  obtain ⟨f, val, cs⟩ := n
  simpa [RadixNode.disjB] using h

theorem RadixNode.neListB_children {V : Type} (n : RadixNode K V)
    (h : n.neB = true) : neListB n.children = true := by
  obtain ⟨f, val, cs⟩ := n
  simpa [RadixNode.neB] using h

theorem entriesOf_eq {V : Type} (f : List K) (val : Option V)
    (cs : List (RadixNode K V)) (pre : List K) :
    entriesOf (RadixNode.mk f val cs) pre =
      (match val with
        | some v => [(pre ++ f, v)]
        | none => []) ++ entriesList cs (pre ++ f) := by
  rw [entriesOf.eq_def]

@[simp] theorem entriesList_nil {V : Type} (pre : List K) :
    entriesList ([] : List (RadixNode K V)) pre = [] := by
  rw [entriesList.eq_def]

theorem entriesList_cons {V : Type} (c : RadixNode K V) (cs : List (RadixNode K V))
    (pre : List K) :
    entriesList (c :: cs) pre = entriesOf c pre ++ entriesList cs pre := by
  rw [entriesList.eq_def]

@[simp] theorem pathOf_nil {V : Type} : pathOf ([] : List (IterFrame K V)) = [] := rfl

theorem pathOf_cons {V : Type} (f : IterFrame K V) (rest : List (IterFrame K V)) :
    pathOf (f :: rest) = pathOf rest ++ f.key_fragment := by
  simp [pathOf]

theorem mem_entriesList_key_ne_nil {V : Type} (cs : List (RadixNode K V))
    (k : List K) (w : V) (hn : neListB cs = true)
    (hm : (k, w) ∈ entriesList cs []) : k ≠ [] := by
  obtain ⟨c2, t2, hc2, ht⟩ := entriesList_shape cs [] k w hm
  have hfrag := (mem_neListB cs c2 hn hc2).1
  intro h0
  rw [h0, List.nil_append] at ht
  have h2 := List.append_eq_nil.mp ht.symm
  exact hfrag h2.1

mutual

/-- The keys enumerated below a node are pairwise distinct, given the
branch invariant and nonempty fragments below. -/
theorem entriesOf_keys_nodup {V : Type} :
    ∀ (n : RadixNode K V) (pre : List K), n.disjB = true → n.neB = true →
    ((entriesOf n pre).map Prod.fst).Nodup
  | .mk f val cs, pre => by
    intro hd hn
    simp only [RadixNode.disjB] at hd
    simp only [RadixNode.neB] at hn
    rw [entriesOf_eq, List.map_append]
    apply List.Nodup.append
    · cases val with
      | none => simp
      | some v => simp
    · exact entriesList_keys_nodup cs (pre ++ f) hd hn
    · intro a ha hb
      cases val with
      | none => simp at ha
      | some v =>
        simp only [List.map_cons, List.map_nil, List.mem_singleton] at ha
        subst ha
        rw [List.mem_map] at hb
        obtain ⟨⟨k2, w2⟩, hmem, hk2⟩ := hb
        replace hk2 : k2 = pre ++ f := hk2
        obtain ⟨c2, t2, hc2, ht⟩ := entriesList_shape cs (pre ++ f) k2 w2 hmem
        have hfrag := (mem_neListB cs c2 hn hc2).1
        rw [hk2] at ht
        have hlen := congrArg List.length ht
        simp only [List.length_append] at hlen
        have hz : c2.fragment.length = 0 := by omega
        exact hfrag (List.length_eq_zero.mp hz)

theorem entriesList_keys_nodup {V : Type} :
    ∀ (cs : List (RadixNode K V)) (pre : List K),
    disjListB cs = true → neListB cs = true →
    ((entriesList cs pre).map Prod.fst).Nodup
  | [], pre => by
    intro _ _
    rw [entriesList_nil]
    simp
  | c :: cs, pre => by
    intro hd hn
    simp only [disjListB, Bool.and_eq_true] at hd
    simp only [neListB, Bool.and_eq_true] at hn
    have hcfrag : c.fragment ≠ [] := by
      intro h0
      have hb := hn.1.1
      rw [h0] at hb
      simp at hb
    rw [entriesList_cons, List.map_append]
    apply List.Nodup.append
    · exact entriesOf_keys_nodup c pre hd.1.2 hn.1.2
    · exact entriesList_keys_nodup cs pre hd.2 hn.2
    · intro a ha hb
      rw [List.mem_map] at ha hb
      obtain ⟨⟨k1, w1⟩, hm1, hk1⟩ := ha
      obtain ⟨⟨k2, w2⟩, hm2, hk2⟩ := hb
      replace hk1 : k1 = a := hk1
      replace hk2 : k2 = a := hk2
      obtain ⟨t1, ht1⟩ := entriesOf_shape c pre k1 w1 hm1
      obtain ⟨c2, t2, hc2, ht2⟩ := entriesList_shape cs pre k2 w2 hm2
      have hdisj := (headDisjoint_iff c.fragment cs).mp hd.1.1 c2 hc2
      have hc2frag := (mem_neListB cs c2 hn.2 hc2).1
      apply cp_zero_append_ne hdisj hcfrag hc2frag t1 t2
      have he : k1 = k2 := by rw [hk1, hk2]
      rw [ht1, ht2] at he
      rw [List.append_assoc, List.append_assoc] at he
      exact List.append_cancel_left he

end

theorem iterLoop_nil {V : Type} (root : RadixNode K V) (len : Nat) :
    iterLoop root len [] = (none, ⟨root, [], len⟩) := by
  rw [iterLoop.eq_def]

theorem iterLoop_pop {V : Type} (root : RadixNode K V) (len : Nat) (g : List K)
    (rest : List (IterFrame K V)) :
    iterLoop root len (⟨[], g⟩ :: rest) = iterLoop root len rest := by
  rw [iterLoop.eq_def]

theorem iterLoop_push {V : Type} (root : RadixNode K V) (len : Nat)
    (t : RadixNode K V) (ts : List (RadixNode K V)) (g : List K)
    (rest : List (IterFrame K V)) :
    iterLoop root len (⟨t :: ts, g⟩ :: rest) =
      match t.value with
      | some v =>
        (some (pathOf (⟨t.children, t.fragment⟩ :: ⟨ts, g⟩ :: rest), v),
          ⟨root, ⟨t.children, t.fragment⟩ :: ⟨ts, g⟩ :: rest, len - 1⟩)
      | none => iterLoop root len (⟨t.children, t.fragment⟩ :: ⟨ts, g⟩ :: rest) := by
  rw [iterLoop.eq_def]

theorem iterLoop_push_some {V : Type} (root : RadixNode K V) (len : Nat)
    (t : RadixNode K V) (ts : List (RadixNode K V)) (g : List K)
    (rest : List (IterFrame K V)) (v : V) (hv : t.value = some v) :
    iterLoop root len (⟨t :: ts, g⟩ :: rest) =
      (some (pathOf (⟨t.children, t.fragment⟩ :: ⟨ts, g⟩ :: rest), v),
        ⟨root, ⟨t.children, t.fragment⟩ :: ⟨ts, g⟩ :: rest, len - 1⟩) := by
  rw [iterLoop_push, hv]

theorem iterLoop_push_none {V : Type} (root : RadixNode K V) (len : Nat)
    (t : RadixNode K V) (ts : List (RadixNode K V)) (g : List K)
    (rest : List (IterFrame K V)) (hv : t.value = none) :
    iterLoop root len (⟨t :: ts, g⟩ :: rest) =
      iterLoop root len (⟨t.children, t.fragment⟩ :: ⟨ts, g⟩ :: rest) := by
  rw [iterLoop_push, hv]

/-- Characterization of the iterator loop by the pending entries of the
stack: an empty remainder returns none and clears the stack; otherwise the
head pending entry is emitted, the count is decremented, and the new stack
carries exactly the remaining entries. -/
theorem iterLoop_char {V : Type} :
    ∀ (root : RadixNode K V) (len : Nat) (stack : List (IterFrame K V)),
    (remEntries stack = [] ∧ iterLoop root len stack = (none, ⟨root, [], len⟩)) ∨
    (∃ x xs st2, remEntries stack = x :: xs ∧ iterLoop root len stack = (some x, st2)
      ∧ st2.root = root ∧ st2.length = len - 1 ∧ remEntries st2.stack = xs)
  | root, len, [] => by
    left
    exact ⟨rfl, iterLoop_nil root len⟩
  | root, len, ⟨[], g⟩ :: rest => by
    have hrem : remEntries (⟨[], g⟩ :: rest) = remEntries rest := by
      simp [remEntries]
    rw [iterLoop_pop, hrem]
    exact iterLoop_char root len rest
  | root, len, ⟨t :: ts, g⟩ :: rest => by
    obtain ⟨tf, tval, tcs⟩ := t
    cases tval with
    | some v =>
      right
      refine ⟨(pathOf (⟨tcs, tf⟩ :: ⟨ts, g⟩ :: rest), v),
        remEntries (⟨tcs, tf⟩ :: ⟨ts, g⟩ :: rest),
        ⟨root, ⟨tcs, tf⟩ :: ⟨ts, g⟩ :: rest, len - 1⟩, ?_, ?_, rfl, rfl, rfl⟩
      · simp [remEntries, entriesList_cons, entriesOf_eq, pathOf_cons,
          List.append_assoc]
      · have h := iterLoop_push_some root len (RadixNode.mk tf (some v) tcs)
          ts g rest v rfl
        simpa using h
    | none =>
      have h1 : iterLoop root len (⟨RadixNode.mk tf none tcs :: ts, g⟩ :: rest) =
          iterLoop root len (⟨tcs, tf⟩ :: ⟨ts, g⟩ :: rest) := by
        have h := iterLoop_push_none root len (RadixNode.mk tf none tcs) ts g rest rfl
        simpa using h
      have h2 : remEntries (⟨RadixNode.mk tf none tcs :: ts, g⟩ :: rest) =
          remEntries (⟨tcs, tf⟩ :: ⟨ts, g⟩ :: rest) := by
        simp [remEntries, entriesList_cons, entriesOf_eq, pathOf_cons,
          List.append_assoc]
      rw [h1, h2]
      exact iterLoop_char root len (⟨tcs, tf⟩ :: ⟨ts, g⟩ :: rest)
termination_by root len stack => stackMeasure stack
decreasing_by
  · simp [stackMeasure, weightList]
  · simp [stackMeasure, weightList, RadixNode.weight]
    omega

theorem iterNext_done {V : Type} (st : IterState K V)
    (h0 : st.length = 0) (hrem : remEntries st.stack = []) :
    iterNext st = (none, ⟨st.root, [], 0⟩) := by
  rw [iterNext.eq_def]
  rw [if_neg (by simp [h0])]
  rcases iterLoop_char st.root st.length st.stack with ⟨h1, h2⟩ | ⟨x, xs, st2, h1, h2⟩
  · rw [h2, h0]
  · rw [hrem] at h1
    exact absurd h1 (by simp)

theorem iterNext_run {V : Type} (st : IterState K V) (x : List K × V)
    (xs : List (List K × V))
    (hlen : ¬ (st.length = 1 ∧ st.root.value.isSome = true))
    (hrem : remEntries st.stack = x :: xs) :
    ∃ st2, iterNext st = (some x, st2) ∧ st2.root = st.root ∧
      st2.length = st.length - 1 ∧ remEntries st2.stack = xs := by
  rw [iterNext.eq_def, if_neg hlen]
  rcases iterLoop_char st.root st.length st.stack with ⟨h1, _⟩ | ⟨y, ys, st2, h1, h2, h3, h4, h5⟩
  · rw [hrem] at h1
    exact absurd h1 (by simp)
  · rw [hrem] at h1
    injection h1 with hxy hxs
    subst hxy
    subst hxs
    exact ⟨st2, h2, h3, h4, h5⟩

theorem iterNext_rootEmit {V : Type} (st : IterState K V) (v : V)
    (h1 : st.length = 1) (hv : st.root.value = some v) :
    iterNext st = (some ([], v), ⟨st.root, st.stack, 0⟩) := by
  rw [iterNext.eq_def, if_pos ⟨h1, by rw [hv]; rfl⟩, hv]
  rfl

theorem collectFuel_succ {V : Type} (st : IterState K V) (n : Nat) :
    collectFuel st (n + 1) =
      match iterNext st with
      | (none, _) => []
      | (some x, st2) => x :: collectFuel st2 n := rfl

theorem collectFuel_succ_some {V : Type} (st st2 : IterState K V)
    (x : List K × V) (n : Nat) (h : iterNext st = (some x, st2)) :
    collectFuel st (n + 1) = x :: collectFuel st2 n := by
  rw [collectFuel_succ, h]

theorem collectFuel_succ_none {V : Type} (st st2 : IterState K V) (n : Nat)
    (h : iterNext st = (none, st2)) :
    collectFuel st (n + 1) = [] := by
  rw [collectFuel_succ, h]

theorem collect_done {V : Type} (st : IterState K V) (n : Nat)
    (h0 : st.length = 0) (hrem : remEntries st.stack = []) :
    collectFuel st n = [] := by
  cases n with
  | zero => rfl
  | succ m => exact collectFuel_succ_none st _ m (iterNext_done st h0 hrem)

/-- Running the iterator from a state whose root holds no value and whose
count matches the pending entries collects exactly those entries. -/
theorem collect_run_none {V : Type} :
    ∀ (L : List (List K × V)) (st : IterState K V) (n : Nat),
    st.root.value = none → st.length = L.length → remEntries st.stack = L →
    L.length < n → collectFuel st n = L
  | [], st, n, _, hlen, hrem, hn => by
    cases n with
    | zero => omega
    | succ m => exact collect_done st (m + 1) (by simpa using hlen) hrem
  | x :: xs, st, n, hv, hlen, hrem, hn => by
    cases n with
    | zero => omega
    | succ m =>
      have hne : ¬ (st.length = 1 ∧ st.root.value.isSome = true) := by
        rw [hv]
        simp
      obtain ⟨st2, he, hroot, hl2, hrem2⟩ := iterNext_run st x xs hne hrem
      rw [collectFuel_succ_some st st2 x m he]
      rw [collect_run_none xs st2 m (by rw [hroot, hv])
        (by rw [hl2, hlen]; simp) hrem2
        (by simp only [List.length_cons] at hn; omega)]

/-- Running the iterator from a state whose root holds a value and whose
count exceeds the pending stack entries by one collects the stack entries
and then the root entry, last. -/
theorem collect_run_pending {V : Type} :
    ∀ (L : List (List K × V)) (st : IterState K V) (n : Nat) (v : V),
    st.root.value = some v → st.length = L.length + 1 → remEntries st.stack = L →
    L.length + 1 < n → collectFuel st n = L ++ [([], v)]
  | [], st, n, v, hv, hlen, hrem, hn => by
    cases n with
    | zero => omega
    | succ m =>
      have h1 : st.length = 1 := by simpa using hlen
      rw [collectFuel_succ_some st _ ([], v) m (iterNext_rootEmit st v h1 hv)]
      rw [collect_done (⟨st.root, st.stack, 0⟩ : IterState K V) m rfl hrem]
      rfl
  | x :: xs, st, n, v, hv, hlen, hrem, hn => by
    cases n with
    | zero => omega
    | succ m =>
      have hne : ¬ (st.length = 1 ∧ st.root.value.isSome = true) := by
        intro hc
        have h := hc.1
        rw [hlen] at h
        simp at h
      obtain ⟨st2, he, hroot, hl2, hrem2⟩ := iterNext_run st x xs hne hrem
      rw [collectFuel_succ_some st st2 x m he]
      rw [collect_run_pending xs st2 m v (by rw [hroot]; exact hv)
        (by rw [hl2, hlen]; simp) hrem2
        (by simp only [List.length_cons] at hn; omega)]
      rfl

theorem nextN_done {V : Type} :
    ∀ (i : Nat) (st : IterState K V), st.length = 0 → remEntries st.stack = [] →
    (nextN st i).length = 0 ∧ remEntries (nextN st i).stack = []
  | 0, _, h0, hrem => ⟨h0, hrem⟩
  | i + 1, st, h0, hrem => by
    simp only [nextN]
    rw [iterNext_done st h0 hrem]
    exact nextN_done i ⟨st.root, [], 0⟩ rfl rfl

/-- The trajectory of the remaining count and pending entries from a state
whose root holds no value. -/
theorem nextN_run_none {V : Type} :
    ∀ (L : List (List K × V)) (i : Nat) (st : IterState K V),
    st.root.value = none → st.length = L.length → remEntries st.stack = L →
    (nextN st i).length = L.length - i ∧ remEntries (nextN st i).stack = L.drop i
  | L, 0, st, _, hlen, hrem => ⟨by simpa using hlen, by simpa using hrem⟩
  | [], i + 1, st, _, hlen, hrem => by
    simp only [nextN]
    rw [iterNext_done st (by simpa using hlen) hrem]
    have h := nextN_done i (⟨st.root, [], 0⟩ : IterState K V) rfl rfl
    simpa using h
  | x :: xs, i + 1, st, hv, hlen, hrem => by
    have hne : ¬ (st.length = 1 ∧ st.root.value.isSome = true) := by
      rw [hv]
      simp
    obtain ⟨st2, he, hroot, hl2, hrem2⟩ := iterNext_run st x xs hne hrem
    simp only [nextN]
    rw [he]
    have ih := nextN_run_none xs i st2 (by rw [hroot]; exact hv)
      (by rw [hl2, hlen]; simp) hrem2
    simpa using ih

/-- The trajectory of the remaining count and pending entries from a state
whose root still holds a value to be emitted. -/
theorem nextN_run_pending {V : Type} :
    ∀ (L : List (List K × V)) (i : Nat) (st : IterState K V) (v : V),
    st.root.value = some v → st.length = L.length + 1 → remEntries st.stack = L →
    (nextN st i).length = (L.length + 1) - i ∧ remEntries (nextN st i).stack = L.drop i
  | L, 0, st, v, _, hlen, hrem => ⟨by simpa using hlen, by simpa using hrem⟩
  | [], i + 1, st, v, hv, hlen, hrem => by
    simp only [nextN]
    rw [iterNext_rootEmit st v (by simpa using hlen) hv]
    have h := nextN_done i (⟨st.root, st.stack, 0⟩ : IterState K V) rfl hrem
    simpa using h
  | x :: xs, i + 1, st, v, hv, hlen, hrem => by
    have hne : ¬ (st.length = 1 ∧ st.root.value.isSome = true) := by
      intro hc
      have h := hc.1
      rw [hlen] at h
      simp at h
    obtain ⟨st2, he, hroot, hl2, hrem2⟩ := iterNext_run st x xs hne hrem
    simp only [nextN]
    rw [he]
    have ih := nextN_run_pending xs i st2 v (by rw [hroot]; exact hv)
      (by rw [hl2, hlen]; simp) hrem2
    simpa using ih

theorem remEntries_iter_ofList {V : Type} (ps : List (List K × V)) :
    remEntries (PrefixMap.ofList ps).iter.stack
      = entriesList (PrefixMap.ofList ps).root.children [] := by
  simp [PrefixMap.iter, remEntries, pathOf, PrefixMap.ofList_root_fragment]

theorem ofList_length_countValues_aux {V : Type} :
    ∀ (ps : List (List K × V)) (m : PrefixMap K V),
    m.length = m.root.countValues →
    (ps.foldl (fun m kv => (m.insert kv.1 kv.2).1) m).length
      = (ps.foldl (fun m kv => (m.insert kv.1 kv.2).1) m).root.countValues
  | [], _, h => h
  | kv :: rest, m, h => by
    rw [List.foldl_cons]
    apply ofList_length_countValues_aux rest
    show ((m.insert kv.1 kv.2).1).length = ((m.insert kv.1 kv.2).1).root.countValues
    rw [PrefixMap.length_insert, PrefixMap.root_insert_fst,
      RadixNode.countValues_insert, RadixNode.insert_snd_eq_get, h]
    show (if (m.get kv.1).isSome then _ else _)
      = _ + (if (m.get kv.1).isSome then (0 : Nat) else 1)
    cases m.get kv.1 <;> simp

theorem ofList_length_countValues {V : Type} (ps : List (List K × V)) :
    (PrefixMap.ofList ps).length = (PrefixMap.ofList ps).root.countValues :=
  ofList_length_countValues_aux ps PrefixMap.new (by
    show 0 = (RadixNode.empty : RadixNode K V).countValues
    rw [RadixNode.empty]
    simp [RadixNode.countValues, countValuesList])

/-- On a map whose root fragment is empty, a get with a nonempty key is
exactly the child search of map.rs get composed with the value read. -/
theorem PrefixMap.get_eq_findChild {V : Type} (m : PrefixMap K V)
    (hf : m.root.fragment = []) (k : List K) (hk : k ≠ []) :
    m.get k = (findChild m.root.children k).bind RadixNode.value := by
  rcases hr : m.root with ⟨f, val, cs⟩
  rw [hr] at hf
  simp only [RadixNode.fragment_mk] at hf
  subst hf
  simp only [PrefixMap.get]
  rw [hr]
  simp only [RadixNode.children_mk]
  rw [RadixNode.find_descend [] k val cs (by simp) (by
    rw [commonPrefixLen_nil_left]
    intro h0
    exact hk (List.length_eq_zero.mp h0.symm))]
  simp

/-- On a map whose root fragment is empty, a get with the empty key reads
exactly the root value slot. -/
theorem PrefixMap.get_nil_root {V : Type} (m : PrefixMap K V)
    (hf : m.root.fragment = []) :
    m.get [] = m.root.value := by
  rcases hr : m.root with ⟨f, val, cs⟩
  rw [hr] at hf
  simp only [RadixNode.fragment_mk] at hf
  subst hf
  simp only [PrefixMap.get]
  rw [hr]
  rw [RadixNode.find_terminal [] [] val cs (by simp) (by simp)]
  cases val with
  | none => simp
  | some v => simp

/-- The full iterator run on an ofList map with no root value is exactly
the pure enumeration of the root children. -/
theorem run_ofList_none {V : Type} (ps : List (List K × V))
    (hv : (PrefixMap.ofList ps).root.value = none) :
    collectFuel (PrefixMap.ofList ps).iter ((PrefixMap.ofList ps).len + 1)
      = entriesList (PrefixMap.ofList ps).root.children [] := by
  have hrem := remEntries_iter_ofList ps
  have hcount := ofList_length_countValues ps
  have hdec := RadixNode.countValues_eq (PrefixMap.ofList ps).root
  rw [hv] at hdec
  simp only [Option.isSome_none, Bool.false_eq_true, if_false] at hdec
  have hlenL : (PrefixMap.ofList ps).length
      = (entriesList (PrefixMap.ofList ps).root.children ([] : List K)).length := by
    rw [hcount, hdec, length_entriesList]
    omega
  exact collect_run_none (entriesList (PrefixMap.ofList ps).root.children [])
    (PrefixMap.ofList ps).iter ((PrefixMap.ofList ps).len + 1) hv hlenL hrem
    (by rw [PrefixMap.len, hlenL]; omega)

/-- The full iterator run on an ofList map whose root holds a value is the
pure enumeration of the root children followed, last, by the root entry. -/
theorem run_ofList_some {V : Type} (ps : List (List K × V)) (v : V)
    (hv : (PrefixMap.ofList ps).root.value = some v) :
    collectFuel (PrefixMap.ofList ps).iter ((PrefixMap.ofList ps).len + 1)
      = entriesList (PrefixMap.ofList ps).root.children [] ++ [([], v)] := by
  have hrem := remEntries_iter_ofList ps
  have hcount := ofList_length_countValues ps
  have hdec := RadixNode.countValues_eq (PrefixMap.ofList ps).root
  rw [hv] at hdec
  simp only [Option.isSome_some, if_true] at hdec
  have hlenL : (PrefixMap.ofList ps).length
      = (entriesList (PrefixMap.ofList ps).root.children ([] : List K)).length + 1 := by
    rw [hcount, hdec, length_entriesList]
    omega
  exact collect_run_pending (entriesList (PrefixMap.ofList ps).root.children [])
    (PrefixMap.ofList ps).iter ((PrefixMap.ofList ps).len + 1) v hv hlenL hrem
    (by rw [PrefixMap.len, hlenL]; omega)

/-! Claim C10. -/

/-- C10: in the byte-keyed encoding of lib.rs, Node::insert called with a
key whose common prefix with the node fragment is nonzero and equal to the
whole key length (the key already exists at the node or is a strict prefix
of its fragment) leaves the node entirely unchanged and discards the
supplied value, so re-inserting an existing key through this encoding does
not overwrite its stored value. -/
theorem byte_node_reinsert_noop {T : Type} (n : Node T) (k : List Nat) (v : T)
    (h1 : 0 < commonPrefixLen n.key k) (h2 : commonPrefixLen n.key k = k.length) :
    n.insert k v = n := by
  obtain ⟨nk, nv, nc, ns⟩ := n
  simp only [Node.node_key_mk] at h1 h2
  rw [Node.insert.eq_def]
  dsimp only
  rw [if_neg (by omega), dif_neg (by omega)]

/-- Witness for C10: re-inserting the existing key 5,6 with value 42 over
the leaf storing 5,6 with value 0 leaves the leaf unchanged, and likewise
for the key 5, a strict prefix of the fragment. -/
theorem byte_node_reinsert_noop_witness :
    (Node.new [5, 6] (0 : Nat)).insert [5, 6] 42 = Node.new [5, 6] 0 ∧
    (Node.new [5, 6] (0 : Nat)).insert [5] 42 = Node.new [5, 6] 0 :=
  ⟨byte_node_reinsert_noop (Node.new [5, 6] 0) [5, 6] 42 (by decide) (by decide),
   byte_node_reinsert_noop (Node.new [5, 6] 0) [5] 42 (by decide) (by decide)⟩

/-! Claim C6. -/

/-- C6 counterexample: on the tree.rs tree built by inserting the key
1,2,3 with value 0 and then the key 1,2,4 with value 5, the query 1,2 is
fully consumed at the split node, which holds no value, and find still
returns it as a match; so it is not true that a fully consumed key returns
the node only if the node holds a value. -/
theorem tree_find_returns_valueless_node :
    ((((Tree.new [1, 2, 3] (0 : Nat)).insert [1, 2, 4] 5).find [1, 2]).isSome = true) ∧
    (((Tree.new [1, 2, 3] (0 : Nat)).insert [1, 2, 4] 5).valueAt [1, 2] = none) := by
  constructor
  · simp [Tree.new, Tree.insert, Tree.find, commonPrefixLen]
  · simp [Tree.new, Tree.insert, Tree.find, Tree.valueAt, commonPrefixLen]

/-- C6 as amended: for every tree.rs tree and query key, find returns none
when the key diverges strictly inside the node fragment; when the key is
fully consumed at the node, find returns that node whether or not it holds
a value (callers such as PrefixMap::get read the value slot afterwards);
and an empty query key on a node with an empty fragment returns that node
itself, again regardless of its value. -/
theorem tree_find_semantics {V : Type} (t : Tree K V) (k : List K) :
    (0 < commonPrefixLen t.key k → commonPrefixLen t.key k < t.key.length →
      t.find k = none) ∧
    (commonPrefixLen t.key k = t.key.length → commonPrefixLen t.key k = k.length →
      t.find k = some t) ∧
    (t.key = [] → t.find [] = some t) := by
  obtain ⟨tk, tv, tc, ts⟩ := t
  simp only [Tree.tree_key_mk]
  refine ⟨?_, ?_, ?_⟩
  · intro h1 h2
    exact Tree.tree_find_divergence tk k tv tc ts (by omega) h2
  · intro h1 h2
    by_cases h0 : commonPrefixLen tk k = 0
    · have htk : tk = [] := List.length_eq_zero.mp (by omega)
      have hk : k = [] := List.length_eq_zero.mp (by omega)
      subst htk; subst hk
      exact Tree.find_nil_nil tv tc ts
    · exact Tree.tree_find_terminal tk k tv tc ts h0 h1 h2
  · rintro rfl
    exact Tree.find_nil_nil tv tc ts

/-! Helper lemmas for claim C3: preservation of every stored binding
across a fragment split in tree.rs insert. -/

namespace Tree

variable {V : Type}

/-- Both shapes a split node can take (value refilled or not, leaf sibling
appended behind the detached child or not) preserve the value stored at
every key other than the inserted one. -/
theorem split_preserve_core (tk : List K) (tv : Option V) (tc ts : Option (Tree K V))
    (k : List K) (v : V) (k0 : List K)
    (h1 : 0 < commonPrefixLen tk k) (h2 : commonPrefixLen tk k < tk.length)
    (hk0 : k0 ≠ k) (rv : Option V) (sb : Option (Tree K V))
    (hrv : rv = none ∨ (commonPrefixLen tk k = k.length ∧ rv = some v))
    (hsb : sb = none ∨ sb = some (Tree.new (k.drop (commonPrefixLen tk k)) v)) :
    (Tree.mk (tk.take (commonPrefixLen tk k)) rv
      (some (Tree.mk (tk.drop (commonPrefixLen tk k)) tv tc sb)) ts).valueAt k0 =
    (Tree.mk tk tv tc ts).valueAt k0 := by
  have hpk : commonPrefixLen tk k ≤ k.length := commonPrefixLen_le_right tk k
  have hptk : commonPrefixLen tk k ≤ tk.length := commonPrefixLen_le_left tk k
  have hq_le : commonPrefixLen tk k0 ≤ tk.length := commonPrefixLen_le_left tk k0
  have hq_ler : commonPrefixLen tk k0 ≤ k0.length := commonPrefixLen_le_right tk k0
  have htk_ne : tk ≠ [] := by
    intro h
    rw [h] at h2
    simp at h2
  have hAlen : (tk.take (commonPrefixLen tk k)).length = commonPrefixLen tk k := by
    simp [List.length_take]
    omega
  have hBlen : (tk.drop (commonPrefixLen tk k)).length
      = tk.length - commonPrefixLen tk k := by
    simp [List.length_drop]
  have hAcp : commonPrefixLen (tk.take (commonPrefixLen tk k)) k0
      = min (commonPrefixLen tk k) (commonPrefixLen tk k0) :=
    commonPrefixLen_take_left _ tk k0
  have hne_old : ¬(k0 = [] ∧ tk = []) := fun h => htk_ne h.2
  have hA_ne : tk.take (commonPrefixLen tk k) ≠ [] := by
    intro h
    have h5 := congrArg List.length h
    rw [hAlen] at h5
    simp at h5
    omega
  have hne_new : ¬(k0 = [] ∧ tk.take (commonPrefixLen tk k) = []) := fun h => hA_ne h.2
  have hB_ne : tk.drop (commonPrefixLen tk k) ≠ [] := by
    intro h
    have h5 := congrArg List.length h
    rw [hBlen] at h5
    simp at h5
    omega
  have hne_B : ¬(k0.drop (commonPrefixLen tk k) = []
      ∧ tk.drop (commonPrefixLen tk k) = []) := fun h => hB_ne h.2
  rw [Tree.valueAt, Tree.valueAt]
  by_cases hq0 : commonPrefixLen tk k0 = 0
  · rw [Tree.find_cp_zero tk k0 tv tc ts hne_old hq0,
      Tree.find_cp_zero (tk.take (commonPrefixLen tk k)) k0 rv
        (some (Tree.mk (tk.drop (commonPrefixLen tk k)) tv tc sb)) ts
        hne_new (by omega)]
  · by_cases hqp : commonPrefixLen tk k0 < commonPrefixLen tk k
    · rw [Tree.tree_find_divergence tk k0 tv tc ts hq0 (by omega),
        Tree.tree_find_divergence (tk.take (commonPrefixLen tk k)) k0 rv
          (some (Tree.mk (tk.drop (commonPrefixLen tk k)) tv tc sb)) ts
          (by omega) (by omega)]
    · -- the query agrees with the whole truncated fragment
      have hcpA : commonPrefixLen (tk.take (commonPrefixLen tk k)) k0
          = commonPrefixLen tk k := by omega
      by_cases hk0len : commonPrefixLen tk k = k0.length
      · -- the query is exactly the truncated fragment
        have hq : commonPrefixLen tk k0 = commonPrefixLen tk k := by omega
        rw [Tree.tree_find_divergence tk k0 tv tc ts hq0 (by omega),
          Tree.tree_find_terminal (tk.take (commonPrefixLen tk k)) k0 rv
            (some (Tree.mk (tk.drop (commonPrefixLen tk k)) tv tc sb)) ts
            (by omega) (by omega) (by omega)]
        rcases hrv with hrv | ⟨hkl, hrv⟩
        · rw [hrv]
          rfl
        · exfalso
          apply hk0
          have e1 : tk.take (commonPrefixLen tk k) = k0.take (commonPrefixLen tk k) :=
            take_eq_take_of_le_commonPrefixLen _ tk k0 (by omega)
          have e2 : tk.take (commonPrefixLen tk k) = k.take (commonPrefixLen tk k) :=
            take_eq_take_of_le_commonPrefixLen _ tk k (by omega)
          have e3 : k0.take (commonPrefixLen tk k) = k0 := by
            rw [hk0len]
            exact List.take_length k0
          have e4 : k.take (commonPrefixLen tk k) = k := by
            rw [hkl]
            exact List.take_length k
          rw [← e3, ← e1, e2, e4]
      · -- the query continues below the truncated fragment
        have hk0lt : commonPrefixLen tk k < k0.length := by omega
        rw [Tree.tree_find_descend (tk.take (commonPrefixLen tk k)) k0 rv
            (some (Tree.mk (tk.drop (commonPrefixLen tk k)) tv tc sb)) ts
            (by omega) (by omega) (by omega), hcpA]
        simp only [Option.some_bind]
        have hk0drop_ne : k0.drop (commonPrefixLen tk k) ≠ [] := by
          intro h
          have h5 := congrArg List.length h
          simp at h5
          omega
        by_cases hq : commonPrefixLen tk k0 = commonPrefixLen tk k
        · -- the query diverges right where the inserted key did
          have hdrop0 : commonPrefixLen (tk.drop (commonPrefixLen tk k))
              (k0.drop (commonPrefixLen tk k)) = 0 := by
            have h6 := commonPrefixLen_drop_divergence tk k0 (by omega) (by omega)
            rw [hq] at h6
            exact h6
          rw [Tree.tree_find_divergence tk k0 tv tc ts hq0 (by omega),
            Tree.find_cp_zero (tk.drop (commonPrefixLen tk k))
              (k0.drop (commonPrefixLen tk k)) tv tc sb hne_B hdrop0]
          rcases hsb with hsb | hsb
          · rw [hsb]
            rfl
          · rw [hsb]
            simp only [Option.some_bind]
            have hkdlen : (k.drop (commonPrefixLen tk k)).length
                = k.length - commonPrefixLen tk k := by
              simp [List.length_drop]
            have hmle : commonPrefixLen (k.drop (commonPrefixLen tk k))
                (k0.drop (commonPrefixLen tk k))
                ≤ (k.drop (commonPrefixLen tk k)).length :=
              commonPrefixLen_le_left _ _
            have hmler : commonPrefixLen (k.drop (commonPrefixLen tk k))
                (k0.drop (commonPrefixLen tk k))
                ≤ (k0.drop (commonPrefixLen tk k)).length :=
              commonPrefixLen_le_right _ _
            have hk0dlen : (k0.drop (commonPrefixLen tk k)).length
                = k0.length - commonPrefixLen tk k := by
              simp [List.length_drop]
            by_cases hm0 : commonPrefixLen (k.drop (commonPrefixLen tk k))
                (k0.drop (commonPrefixLen tk k)) = 0
            · rw [Tree.new, Tree.find_cp_zero (k.drop (commonPrefixLen tk k))
                (k0.drop (commonPrefixLen tk k)) (some v) none none
                (fun h => hk0drop_ne h.1) hm0]
              rfl
            · by_cases hmlt : commonPrefixLen (k.drop (commonPrefixLen tk k))
                  (k0.drop (commonPrefixLen tk k)) < (k.drop (commonPrefixLen tk k)).length
              · rw [Tree.new, Tree.tree_find_divergence (k.drop (commonPrefixLen tk k))
                  (k0.drop (commonPrefixLen tk k)) (some v) none none hm0 hmlt]
              · -- the query runs through the whole leaf fragment
                by_cases hmk0 : commonPrefixLen (k.drop (commonPrefixLen tk k))
                    (k0.drop (commonPrefixLen tk k)) = (k0.drop (commonPrefixLen tk k)).length
                · exfalso
                  apply hk0
                  have e0 : k.drop (commonPrefixLen tk k)
                      = k0.drop (commonPrefixLen tk k) := by
                    apply eq_of_commonPrefixLen_full
                    · omega
                    · omega
                  have e1 : tk.take (commonPrefixLen tk k) = k0.take (commonPrefixLen tk k) :=
                    take_eq_take_of_le_commonPrefixLen _ tk k0 (by omega)
                  have e2 : tk.take (commonPrefixLen tk k) = k.take (commonPrefixLen tk k) :=
                    take_eq_take_of_le_commonPrefixLen _ tk k (by omega)
                  calc k0 = k0.take (commonPrefixLen tk k)
                        ++ k0.drop (commonPrefixLen tk k) :=
                        (List.take_append_drop _ k0).symm
                    _ = k.take (commonPrefixLen tk k) ++ k.drop (commonPrefixLen tk k) := by
                        rw [← e1, e2, e0]
                    _ = k := List.take_append_drop _ k
                · rw [Tree.new, Tree.tree_find_descend (k.drop (commonPrefixLen tk k))
                    (k0.drop (commonPrefixLen tk k)) (some v) none none hm0
                    (by omega) hmk0]
                  rfl
        · -- the query agrees with the fragment beyond the split point
          have hqgt : commonPrefixLen tk k < commonPrefixLen tk k0 := by omega
          have hdropq : commonPrefixLen (tk.drop (commonPrefixLen tk k))
              (k0.drop (commonPrefixLen tk k))
              = commonPrefixLen tk k0 - commonPrefixLen tk k :=
            commonPrefixLen_drop_both _ tk k0 (by omega)
          have hk0dlen : (k0.drop (commonPrefixLen tk k)).length
              = k0.length - commonPrefixLen tk k := by
            simp [List.length_drop]
          by_cases hql : commonPrefixLen tk k0 < tk.length
          · rw [Tree.tree_find_divergence tk k0 tv tc ts hq0 hql,
              Tree.tree_find_divergence (tk.drop (commonPrefixLen tk k))
                (k0.drop (commonPrefixLen tk k)) tv tc sb (by omega) (by omega)]
          · have hqtk : commonPrefixLen tk k0 = tk.length := by omega
            by_cases hqk0 : commonPrefixLen tk k0 = k0.length
            · rw [Tree.tree_find_terminal tk k0 tv tc ts hq0 hqtk hqk0,
                Tree.tree_find_terminal (tk.drop (commonPrefixLen tk k))
                  (k0.drop (commonPrefixLen tk k)) tv tc sb
                  (by omega) (by omega) (by omega)]
              rfl
            · rw [Tree.tree_find_descend tk k0 tv tc ts hq0 hqtk hqk0,
                Tree.tree_find_descend (tk.drop (commonPrefixLen tk k))
                  (k0.drop (commonPrefixLen tk k)) tv tc sb
                  (by omega) (by omega) (by omega),
                hdropq, List.drop_drop]
              have harith : commonPrefixLen tk k0 - commonPrefixLen tk k
                  + commonPrefixLen tk k = commonPrefixLen tk k0 := by omega
              have harith2 : commonPrefixLen tk k
                  + (commonPrefixLen tk k0 - commonPrefixLen tk k)
                  = commonPrefixLen tk k0 := by omega
              first
              | rw [harith]
              | rw [harith2]

/-- After a split, the inserted key is retrievable with the new value. -/
theorem split_found_core (tk : List K) (tv : Option V) (tc ts : Option (Tree K V))
    (k : List K) (v : V)
    (h1 : 0 < commonPrefixLen tk k) (h2 : commonPrefixLen tk k < tk.length) :
    ((Tree.mk tk tv tc ts).insert k v).valueAt k = some v := by
  have hpk : commonPrefixLen tk k ≤ k.length := commonPrefixLen_le_right tk k
  have hptk : commonPrefixLen tk k ≤ tk.length := commonPrefixLen_le_left tk k
  have hAlen : (tk.take (commonPrefixLen tk k)).length = commonPrefixLen tk k := by
    simp [List.length_take]
    omega
  have hBlen : (tk.drop (commonPrefixLen tk k)).length
      = tk.length - commonPrefixLen tk k := by
    simp [List.length_drop]
  have hcpA : commonPrefixLen (tk.take (commonPrefixLen tk k)) k
      = commonPrefixLen tk k := by
    rw [commonPrefixLen_take_left]
    omega
  by_cases hterm : commonPrefixLen tk k < k.length
  · have hkdrop_ne : (k.drop (commonPrefixLen tk k)).length
        = k.length - commonPrefixLen tk k := by
      simp [List.length_drop]
    rw [Tree.tree_insert_split_descend tk k tv tc ts v (by omega) h2 hterm, Tree.valueAt,
      Tree.tree_find_descend (tk.take (commonPrefixLen tk k)) k none
        (some (Tree.mk (tk.drop (commonPrefixLen tk k)) tv tc
          (some (Tree.new (k.drop (commonPrefixLen tk k)) v)))) ts
        (by omega) (by omega) (by omega), hcpA]
    simp only [Option.some_bind]
    have hdrop0 : commonPrefixLen (tk.drop (commonPrefixLen tk k))
        (k.drop (commonPrefixLen tk k)) = 0 :=
      commonPrefixLen_drop_divergence tk k h2 hterm
    rw [Tree.find_cp_zero (tk.drop (commonPrefixLen tk k)) (k.drop (commonPrefixLen tk k))
      tv tc (some (Tree.new (k.drop (commonPrefixLen tk k)) v))
      (by
        rintro ⟨_, h⟩
        have h5 := congrArg List.length h
        rw [hBlen] at h5
        simp at h5
        omega)
      hdrop0]
    simp only [Option.some_bind]
    rw [Tree.new, Tree.tree_find_terminal (k.drop (commonPrefixLen tk k))
      (k.drop (commonPrefixLen tk k)) (some v) none none
      (by simp; omega) (by simp) (by simp)]
    rfl
  · rw [Tree.tree_insert_split_terminal tk k tv tc ts v (by omega) h2 hterm, Tree.valueAt,
      Tree.tree_find_terminal (tk.take (commonPrefixLen tk k)) k (some v)
        (some (Tree.mk (tk.drop (commonPrefixLen tk k)) tv tc none)) ts
        (by omega) (by omega) (by omega)]
    rfl

end Tree

/-! Claim C3. -/

/-- C3: when an inserted key diverges strictly inside a node fragment
(tree.rs encoding), insert splits the node: the fragment suffix together
with the node value and children moves into a single new child, the
fragment is truncated to the common prefix and the node value slot is
cleared (the terminal step then refills it with the new value exactly when
the key ends at the truncated node; with a longer key the remainder becomes
a fresh leaf behind the detached child); every key-value pair retrievable
before the split is still retrievable with the same value after it, and the
inserted key is retrievable with the new value.  The witness instantiates
this at the keys foo and fobar. -/
theorem tree_insert_split_preserves {V : Type} (tk : List K) (tv : Option V)
    (tc ts : Option (Tree K V)) (k : List K) (v : V)
    (h1 : 0 < commonPrefixLen tk k) (h2 : commonPrefixLen tk k < tk.length) :
    ((commonPrefixLen tk k = k.length →
      (Tree.mk tk tv tc ts).insert k v =
        Tree.mk (tk.take (commonPrefixLen tk k)) (some v)
          (some (Tree.mk (tk.drop (commonPrefixLen tk k)) tv tc none)) ts) ∧
     (commonPrefixLen tk k < k.length →
      (Tree.mk tk tv tc ts).insert k v =
        Tree.mk (tk.take (commonPrefixLen tk k)) none
          (some (Tree.mk (tk.drop (commonPrefixLen tk k)) tv tc
            (some (Tree.new (k.drop (commonPrefixLen tk k)) v)))) ts)) ∧
    (∀ k0, k0 ≠ k →
      ((Tree.mk tk tv tc ts).insert k v).valueAt k0 =
        (Tree.mk tk tv tc ts).valueAt k0) ∧
    ((Tree.mk tk tv tc ts).insert k v).valueAt k = some v := by
  refine ⟨⟨?_, ?_⟩, ?_, ?_⟩
  · intro h3
    exact Tree.tree_insert_split_terminal tk k tv tc ts v (by omega) h2 (by omega)
  · intro h3
    exact Tree.tree_insert_split_descend tk k tv tc ts v (by omega) h2 h3
  · intro k0 hk0
    by_cases hterm : commonPrefixLen tk k < k.length
    · rw [Tree.tree_insert_split_descend tk k tv tc ts v (by omega) h2 hterm]
      exact Tree.split_preserve_core tk tv tc ts k v k0 h1 h2 hk0 none
        (some (Tree.new (k.drop (commonPrefixLen tk k)) v)) (Or.inl rfl) (Or.inr rfl)
    · rw [Tree.tree_insert_split_terminal tk k tv tc ts v (by omega) h2 hterm]
      have hkl : commonPrefixLen tk k = k.length := by
        have := commonPrefixLen_le_right tk k
        omega
      exact Tree.split_preserve_core tk tv tc ts k v k0 h1 h2 hk0 (some v) none
        (Or.inr ⟨hkl, rfl⟩) (Or.inl rfl)
  · exact Tree.split_found_core tk tv tc ts k v h1 h2

/-- Witness for C3 at the spec's example: in the tree holding foo with
value 0 (bytes 102,111,111), inserting fobar (bytes 102,111,98,97,114)
splits the fragment at fo, and both foo and fobar are afterwards
retrievable with their values. -/
theorem tree_insert_split_preserves_witness :
    ((Tree.new [102, 111, 111] (0 : Nat)).insert [102, 111, 98, 97, 114] 1).valueAt
      [102, 111, 111] = some 0 ∧
    ((Tree.new [102, 111, 111] (0 : Nat)).insert [102, 111, 98, 97, 114] 1).valueAt
      [102, 111, 98, 97, 114] = some 1 := by
  constructor
  · have h := (tree_insert_split_preserves [102, 111, 111] (some 0) none none
      [102, 111, 98, 97, 114] 1 (by decide) (by decide)).2.1 [102, 111, 111] (by decide)
    rw [Tree.new, h]
    simp [Tree.valueAt, Tree.find, commonPrefixLen]
  · exact (tree_insert_split_preserves [102, 111, 111] (some 0) none none
      [102, 111, 98, 97, 114] 1 (by decide) (by decide)).2.2

/-- Witness for the amended C6 at concrete inputs: a key diverging inside
the fragment yields none, an exactly consumed key returns the node (here a
valued one), and the empty key on an empty-fragment node returns the node. -/
theorem tree_find_semantics_witness :
    (Tree.new [1, 2, 3] (0 : Nat)).find [1, 9] = none ∧
    (Tree.new [1, 2] (0 : Nat)).find [1, 2] = some (Tree.new [1, 2] 0) ∧
    (Tree.mk ([] : List Nat) (none : Option Nat) none none).find [] =
      some (Tree.mk [] none none none) :=
  ⟨(tree_find_semantics (Tree.new [1, 2, 3] 0) [1, 9]).1 (by decide) (by decide),
   (tree_find_semantics (Tree.new [1, 2] 0) [1, 2]).2.1 (by decide) (by decide),
   (tree_find_semantics (Tree.mk [] none none none) []).2.2 rfl⟩

/-! Claims C7 and C8. -/

theorem ofList_length_entries_none {V : Type} (ps : List (List K × V))
    (hv : (PrefixMap.ofList ps).root.value = none) :
    (PrefixMap.ofList ps).length
      = (entriesList (PrefixMap.ofList ps).root.children ([] : List K)).length := by
  have hcount := ofList_length_countValues ps
  have hdec := RadixNode.countValues_eq (PrefixMap.ofList ps).root
  rw [hv] at hdec
  rw [hcount, hdec, length_entriesList, if_neg (by simp)]
  omega

theorem ofList_length_entries_some {V : Type} (ps : List (List K × V)) (v : V)
    (hv : (PrefixMap.ofList ps).root.value = some v) :
    (PrefixMap.ofList ps).length
      = (entriesList (PrefixMap.ofList ps).root.children ([] : List K)).length + 1 := by
  have hcount := ofList_length_countValues ps
  have hdec := RadixNode.countValues_eq (PrefixMap.ofList ps).root
  rw [hv] at hdec
  rw [hcount, hdec, length_entriesList, if_pos (by simp)]
  omega

/-- C7: on every map built by insertions, running the iterator to
exhaustion yields exactly the pairs retrievable via get, with pairwise
distinct keys and exactly len entries; after any number of next calls the
reported remaining count is exact, and from the point of exhaustion on
every further next returns none (the iterator is fused). -/
theorem iteration_complete {V : Type} (ps : List (List K × V)) :
    (∀ (k : List K) (w : V),
      ((k, w) ∈ collectFuel (PrefixMap.ofList ps).iter ((PrefixMap.ofList ps).len + 1))
        ↔ (PrefixMap.ofList ps).get k = some w) ∧
    ((collectFuel (PrefixMap.ofList ps).iter
        ((PrefixMap.ofList ps).len + 1)).map Prod.fst).Nodup ∧
    ((collectFuel (PrefixMap.ofList ps).iter ((PrefixMap.ofList ps).len + 1)).length
        = (PrefixMap.ofList ps).len) ∧
    (∀ i : Nat, iterLen (nextN (PrefixMap.ofList ps).iter i)
        = (PrefixMap.ofList ps).len - i) ∧
    (∀ i : Nat, (iterNext (nextN (PrefixMap.ofList ps).iter
        ((PrefixMap.ofList ps).len + i))).1 = none) := by
  have hfrag := PrefixMap.ofList_root_fragment ps
  have hd := RadixNode.disjListB_children _ (ofList_root_disjB ps)
  have hne := RadixNode.neListB_children _ (ofList_root_neB ps)
  have hrem := remEntries_iter_ofList ps
  have hpl : (PrefixMap.ofList ps).len = (PrefixMap.ofList ps).length := rfl
  rcases hvv : (PrefixMap.ofList ps).root.value with _ | v
  · -- no root value: the run is exactly the enumeration of the children
    have hrun := run_ofList_none ps hvv
    have hlen0 := ofList_length_entries_none ps hvv
    refine ⟨?_, ?_, ?_, ?_, ?_⟩
    · intro k w
      by_cases hk : k = []
      · subst hk
        constructor
        · intro hm
          rw [hrun] at hm
          exact absurd rfl (mem_entriesList_key_ne_nil _ [] w hne hm)
        · intro hg
          rw [PrefixMap.get_nil_root _ hfrag, hvv] at hg
          simp at hg
      · rw [hrun, PrefixMap.get_eq_findChild _ hfrag k hk]
        have h := mem_entriesList_iff (PrefixMap.ofList ps).root.children [] k w hd hne
        rw [List.nil_append] at h
        exact h
    · rw [hrun]
      exact entriesList_keys_nodup (PrefixMap.ofList ps).root.children [] hd hne
    · rw [hrun]
      rw [PrefixMap.len, hlen0]
    · intro i
      have h := nextN_run_none (entriesList (PrefixMap.ofList ps).root.children [])
        i (PrefixMap.ofList ps).iter hvv hlen0 hrem
      simp only [iterLen]
      rw [h.1]
      simp only [PrefixMap.len]
      rw [hlen0]
    · intro i
      have h := nextN_run_none (entriesList (PrefixMap.ofList ps).root.children [])
        ((PrefixMap.ofList ps).len + i) (PrefixMap.ofList ps).iter hvv hlen0 hrem
      have h0 : (nextN (PrefixMap.ofList ps).iter
          ((PrefixMap.ofList ps).len + i)).length = 0 := by
        rw [h.1]
        omega
      have hr0 : remEntries (nextN (PrefixMap.ofList ps).iter
          ((PrefixMap.ofList ps).len + i)).stack = [] := by
        rw [h.2]
        exact List.drop_eq_nil_of_le (by omega)
      rw [iterNext_done _ h0 hr0]
  · -- root value present: the run also emits the root entry, last
    have hrun := run_ofList_some ps v hvv
    have hlen1 := ofList_length_entries_some ps v hvv
    refine ⟨?_, ?_, ?_, ?_, ?_⟩
    · intro k w
      by_cases hk : k = []
      · subst hk
        rw [hrun, List.mem_append]
        constructor
        · intro hm
          rcases hm with hm | hm
          · exact absurd rfl (mem_entriesList_key_ne_nil _ [] w hne hm)
          · simp only [List.mem_singleton, Prod.mk.injEq] at hm
            rw [PrefixMap.get_nil_root _ hfrag, hvv, hm.2]
        · intro hg
          rw [PrefixMap.get_nil_root _ hfrag, hvv] at hg
          simp only [Option.some.injEq] at hg
          right
          simp [hg]
      · rw [hrun, List.mem_append, PrefixMap.get_eq_findChild _ hfrag k hk]
        have h := mem_entriesList_iff (PrefixMap.ofList ps).root.children [] k w hd hne
        rw [List.nil_append] at h
        constructor
        · intro hm
          rcases hm with hm | hm
          · exact h.mp hm
          · simp only [List.mem_singleton, Prod.mk.injEq] at hm
            exact absurd hm.1 hk
        · intro hg
          left
          exact h.mpr hg
    · rw [hrun, List.map_append]
      apply List.Nodup.append
      · exact entriesList_keys_nodup (PrefixMap.ofList ps).root.children [] hd hne
      · simp
      · intro a ha hb
        simp only [List.map_cons, List.map_nil, List.mem_singleton] at hb
        subst hb
        rw [List.mem_map] at ha
        obtain ⟨⟨k1, w1⟩, hm1, hk1⟩ := ha
        replace hk1 : k1 = [] := hk1
        exact (mem_entriesList_key_ne_nil _ k1 w1 hne hm1) hk1
    · rw [hrun, List.length_append]
      simp only [PrefixMap.len]
      rw [hlen1]
      simp
    · intro i
      have h := nextN_run_pending (entriesList (PrefixMap.ofList ps).root.children [])
        i (PrefixMap.ofList ps).iter v hvv hlen1 hrem
      simp only [iterLen]
      rw [h.1]
      omega
    · intro i
      have h := nextN_run_pending (entriesList (PrefixMap.ofList ps).root.children [])
        ((PrefixMap.ofList ps).len + i) (PrefixMap.ofList ps).iter v hvv hlen1 hrem
      have h0 : (nextN (PrefixMap.ofList ps).iter
          ((PrefixMap.ofList ps).len + i)).length = 0 := by
        rw [h.1]
        omega
      have hr0 : remEntries (nextN (PrefixMap.ofList ps).iter
          ((PrefixMap.ofList ps).len + i)).stack = [] := by
        rw [h.2]
        exact List.drop_eq_nil_of_le (by omega)
      rw [iterNext_done _ h0 hr0]

theorem radix_example_insert1 :
    (RadixNode.mk ([] : List Nat) (none : Option Nat) []).insert [] 1
      = (RadixNode.mk [] (some 1) [], none) := by
  rw [RadixNode.insert_terminal [] [] none [] 1 (by simp) (by simp)]

theorem radix_example_insert2 :
    (RadixNode.mk ([] : List Nat) (some 1 : Option Nat) []).insert [0] 2
      = (RadixNode.mk [] (some 1) [RadixNode.mk [0] (some 2) []], none) := by
  rw [RadixNode.insert_descend [] [0] (some 1) [] 2 (by simp) (by simp)]
  simp

theorem ofList_pair_example :
    PrefixMap.ofList [(([] : List Nat), (1 : Nat)), ([0], 2)]
      = ⟨RadixNode.mk [] (some 1) [RadixNode.mk [0] (some 2) []], 2⟩ := by
  have h1 : ((PrefixMap.new : PrefixMap Nat Nat).insert [] 1).1
      = ⟨RadixNode.mk [] (some 1) [], 1⟩ := by
    simp only [PrefixMap.insert]
    rw [show (PrefixMap.new : PrefixMap Nat Nat).root = RadixNode.mk [] none [] from rfl,
      radix_example_insert1]
    rfl
  have h2 : ((⟨RadixNode.mk [] (some 1) [], 1⟩ : PrefixMap Nat Nat).insert [0] 2).1
      = ⟨RadixNode.mk [] (some 1) [RadixNode.mk [0] (some 2) []], 2⟩ := by
    simp only [PrefixMap.insert]
    rw [radix_example_insert2]
    rfl
  show (((PrefixMap.new : PrefixMap Nat Nat).insert [] 1).1.insert [0] 2).1 = _
  rw [h1, h2]

theorem run_pair_eval :
    collectFuel ((⟨RadixNode.mk [] (some 1) [RadixNode.mk [0] (some 2) []], 2⟩
        : PrefixMap Nat Nat)).iter
      ((⟨RadixNode.mk ([] : List Nat) ((some 1) : Option Nat)
          [RadixNode.mk [0] (some 2) []], 2⟩ : PrefixMap Nat Nat).len + 1)
      = [([0], 2), ([], 1)] := by
  have hn1 : iterNext (⟨RadixNode.mk [] (some 1) [RadixNode.mk [0] (some 2) []],
      [⟨[RadixNode.mk [0] (some 2) []], []⟩], 2⟩ : IterState Nat Nat)
      = (some ([0], 2),
        ⟨RadixNode.mk [] (some 1) [RadixNode.mk [0] (some 2) []],
          [⟨[], [0]⟩, ⟨[], []⟩], 1⟩) := by
    rw [iterNext.eq_def]
    rw [if_neg (by simp)]
    dsimp only
    rw [iterLoop_push_some _ 2 (RadixNode.mk [0] (some (2 : Nat)) []) [] [] [] 2 rfl]
    simp [pathOf]
  have hn2 : iterNext (⟨RadixNode.mk [] (some 1) [RadixNode.mk [0] (some 2) []],
      [⟨[], [0]⟩, ⟨[], []⟩], 1⟩ : IterState Nat Nat)
      = (some ([], 1),
        ⟨RadixNode.mk [] (some 1) [RadixNode.mk [0] (some 2) []],
          [⟨[], [0]⟩, ⟨[], []⟩], 0⟩) := by
    rw [iterNext.eq_def]
    rw [if_pos ⟨rfl, rfl⟩]
    rfl
  have hn3 : iterNext (⟨RadixNode.mk [] (some 1) [RadixNode.mk [0] (some 2) []],
      [⟨[], [0]⟩, ⟨[], []⟩], 0⟩ : IterState Nat Nat)
      = (none, ⟨RadixNode.mk [] (some 1) [RadixNode.mk [0] (some 2) []], [], 0⟩) := by
    rw [iterNext.eq_def]
    rw [if_neg (by simp)]
    dsimp only
    rw [iterLoop_pop, iterLoop_pop, iterLoop_nil]
  calc collectFuel (⟨RadixNode.mk [] (some 1) [RadixNode.mk [0] (some 2) []],
        [⟨[RadixNode.mk [0] (some 2) []], []⟩], 2⟩ : IterState Nat Nat) (2 + 1)
      = ([0], 2) :: collectFuel
          (⟨RadixNode.mk [] (some 1) [RadixNode.mk [0] (some 2) []],
            [⟨[], [0]⟩, ⟨[], []⟩], 1⟩ : IterState Nat Nat) (1 + 1) :=
        collectFuel_succ_some _ _ _ 2 hn1
    _ = ([0], 2) :: ([], 1) :: collectFuel
          (⟨RadixNode.mk [] (some 1) [RadixNode.mk [0] (some 2) []],
            [⟨[], [0]⟩, ⟨[], []⟩], 0⟩ : IterState Nat Nat) (0 + 1) := by
        rw [collectFuel_succ_some _ _ _ 1 hn2]
    _ = [([0], 2), ([], 1)] := by
        rw [collectFuel_succ_none _ _ 0 hn3]

/-- C8 counterexample: in the map built by inserting the empty key with
value 1 and then the key 0 with value 2, the root holds a value, yet the
first entry the iterator yields is the key 0 entry; the root (empty key)
entry comes out last, because Iter::next only takes the root branch once
exactly one entry remains. -/
theorem root_entry_not_first :
    (PrefixMap.ofList [(([] : List Nat), (1 : Nat)), ([0], 2)]).root.value = some 1 ∧
    (PrefixMap.ofList [(([] : List Nat), (1 : Nat)), ([0], 2)]).len = 2 ∧
    collectFuel (PrefixMap.ofList [(([] : List Nat), (1 : Nat)), ([0], 2)]).iter
        ((PrefixMap.ofList [(([] : List Nat), (1 : Nat)), ([0], 2)]).len + 1)
      = [([0], 2), ([], 1)] := by
  refine ⟨by rw [ofList_pair_example]; rfl, by rw [ofList_pair_example]; rfl, ?_⟩
  rw [ofList_pair_example]
  exact run_pair_eval

/-- C8 amended: on every map built by insertions whose root holds a value
(the empty key was inserted), the iterator yields the root entry (empty
key, root value) last, after every other entry: the run is the enumeration
of the root children followed by the root entry, and every entry of that
enumeration carries a nonempty key. -/
theorem root_entry_yielded_last {V : Type} (ps : List (List K × V)) (v : V)
    (hv : (PrefixMap.ofList ps).root.value = some v) :
    (collectFuel (PrefixMap.ofList ps).iter ((PrefixMap.ofList ps).len + 1)
      = entriesList (PrefixMap.ofList ps).root.children [] ++ [([], v)]) ∧
    (∀ e ∈ entriesList (PrefixMap.ofList ps).root.children ([] : List K),
      e.1 ≠ ([] : List K)) := by
  refine ⟨run_ofList_some ps v hv, ?_⟩
  intro e he
  obtain ⟨k, w⟩ := e
  have hne := RadixNode.neListB_children _ (ofList_root_neB ps)
  exact mem_entriesList_key_ne_nil _ k w hne he

/-- Witness for the amended C8: the hypothesis holds for the two-entry
example map, and the run ends with the root entry. -/
theorem root_entry_yielded_last_witness :
    (PrefixMap.ofList [(([] : List Nat), (1 : Nat)), ([0], 2)]).root.value = some 1 ∧
    collectFuel (PrefixMap.ofList [(([] : List Nat), (1 : Nat)), ([0], 2)]).iter
        ((PrefixMap.ofList [(([] : List Nat), (1 : Nat)), ([0], 2)]).len + 1)
      = entriesList
          (PrefixMap.ofList [(([] : List Nat), (1 : Nat)), ([0], 2)]).root.children []
          ++ [([], 1)] := by
  have hv : (PrefixMap.ofList [(([] : List Nat), (1 : Nat)), ([0], 2)]).root.value
      = some 1 := by
    rw [ofList_pair_example]
    rfl
  exact ⟨hv, (root_entry_yielded_last [(([] : List Nat), (1 : Nat)), ([0], 2)] 1 hv).1⟩

end PrefixTree
